import Mathlib

/-!
Verification development for the Stream subsystem of a media-download
orchestrator (file src/core/stream.cpp).  Qt strings are modelled as lists
of characters (QStr), Qt containers as association lists, and the stateful
classes as explicit state records with step functions.  Machine integers
(qint64) are modelled as Int; the double percentage arithmetic of the
progress parser is modelled exactly with an integer numerator/denominator
pair.
-/

namespace ArrowDl

/-- Characters of a QString.  -/
abbrev QStr := List Char

/-- Model of QChar::isSpace restricted to the ASCII whitespace characters
that actually occur in the extractor's output. -/
def qIsSpace (c : Char) : Bool :=
  c = ' ' || c = '\t' || c = '\n' || c = '\r' || c = '\x0b' || c = '\x0c'

/-- Whether the first character of the list is a whitespace character. -/
def headIsSpace : QStr → Bool
  | [] => false
  | c :: _ => qIsSpace c

/-- Whether the first character of the list equals the given character. -/
def headIs (u : Char) : QStr → Bool
  | [] => false
  | c :: _ => c = u

/-- Accumulator-based worker for splitting a string on a character class
with QString::SkipEmptyParts semantics.  The accumulator holds the
characters of the current (reversed) word. -/
def wordsByAcc (p : Char → Bool) : QStr → QStr → List QStr
  | [], acc => if acc.isEmpty then [] else [acc.reverse]
  | c :: cs, acc =>
    if p c then
      if acc.isEmpty then wordsByAcc p cs [] else acc.reverse :: wordsByAcc p cs []
    else
      wordsByAcc p cs (c :: acc)

/-- QString::split with SkipEmptyParts on the character class p. -/
def wordsBy (p : Char → Bool) (l : QStr) : List QStr :=
  wordsByAcc p l []

/-- Join a list of strings with a single separator character between
consecutive entries (QStringList::join with a one-character separator). -/
def joinSep (sep : Char) : List QStr → QStr
  | [] => []
  | [w] => w
  | w :: v :: ws => w ++ sep :: joinSep sep (v :: ws)

/-- QByteArray::split on a separator character, keeping empty parts. -/
def splitKeep (sep : Char) : QStr → List QStr
  | [] => [[]]
  | c :: cs =>
    match splitKeep sep cs with
    | [] => [[c]]
    | w :: ws => if c = sep then [] :: w :: ws else (c :: w) :: ws

/-- Collapse every run of whitespace into a single space (the internal
part of QString::simplified); keeps the last character of each run as a
plain space. -/
def squeezeWS : QStr → QStr
  | [] => []
  | c :: cs =>
    if qIsSpace c then
      if headIsSpace cs then squeezeWS cs else ' ' :: squeezeWS cs
    else
      c :: squeezeWS cs

/-- Drop leading whitespace. -/
def qTrimL (l : QStr) : QStr := l.dropWhile qIsSpace

/-- Model of QString::simplified: trim both ends and collapse internal
whitespace runs to single spaces. -/
def qSimplified (l : QStr) : QStr :=
  (qTrimL ((qTrimL (squeezeWS l)).reverse)).reverse

/-- Model of QString::trimmed: strip leading and trailing whitespace. -/
def qTrimmed (l : QStr) : QStr :=
  ((qTrimL ((qTrimL l).reverse)).reverse)

/-- Replace every run of underscores by a single underscore (the
QRegExp("_+") → "_" replacement); keeps the last underscore of each run. -/
def collapseUS : QStr → QStr
  | [] => []
  | c :: cs =>
    if c = '_' && headIs '_' cs then collapseUS cs else c :: collapseUS cs

/-- True when the list never has two consecutive occurrences of u. -/
def noDoubleChar (u : Char) : QStr → Bool
  | [] => true
  | [_] => true
  | a :: b :: rest => !(a = u && b = u) && noDoubleChar u (b :: rest)

/-- Whether the last character of the list equals u. -/
def lastIs (u : Char) (l : QStr) : Bool := headIs u l.reverse

/-- Lower-case a string character by character (QString::toLower on the
ASCII range that matters for the compared literals). -/
def lowerStr (l : QStr) : QStr := l.map Char.toLower

/-- Decimal digits of a natural number (QString::number), via structural
fuel recursion so that the kernel can evaluate it. -/
def natCharsAux : Nat → Nat → List Char
  | 0, _ => []
  | fuel + 1, m =>
    if m < 10 then [Char.ofNat (48 + m)]
    else Char.ofNat (48 + m % 10) :: natCharsAux fuel (m / 10)

/-- QString::number for a natural number. -/
def natChars (n : Nat) : QStr := (natCharsAux (n + 1) n).reverse

/-- Value of a digit string as a natural number. -/
def digitsVal (l : QStr) : Nat :=
  l.foldl (fun n c => 10 * n + (c.toNat - 48)) 0

/-- Modelled from the spec: the core of Format::parsePercentDecimal /
decimal parsing (src/core/format.cpp is not part of the given sources).
Strips every character that is neither a digit nor the decimal point, then
reads an integer part and a fractional part.  Returns the value as a pair
(numerator, power-of-ten denominator); none when no digit is present. -/
def parseDecCore (cs : QStr) : Option (Nat × Nat) :=
  let ds := cs.filter (fun c => c.isDigit || c = '.')
  if ds.any Char.isDigit then
    let ip := ds.takeWhile Char.isDigit
    let fp := ((ds.dropWhile Char.isDigit).drop 1).takeWhile Char.isDigit
    some (digitsVal ip * 10 ^ fp.length + digitsVal fp, 10 ^ fp.length)
  else
    none

/-- Modelled from the spec: Format::parsePercentDecimal, the
locale-tolerant percentage parser ("accepting 1,234.5% patterns").
Failure is signalled by a negative value, as in the source; the value is
returned as an exact numerator/denominator pair standing for the double. -/
def parsePercentDecimal (cs : QStr) : Int × Nat :=
  match parseDecCore cs with
  | some (n, d) => ((n : Int), d)
  | none => (-1, 1)

/-- Modelled from the spec: multiplier of an SI-like byte-size suffix
such as the "MiB" of "4.12MiB" (Format::parseBytes helper). -/
def byteSuffixMult (suf : QStr) : Option Nat :=
  if suf = [] || suf = ['B'] then some 1
  else if suf = ['K', 'i', 'B'] then some 1024
  else if suf = ['M', 'i', 'B'] then some (1024 * 1024)
  else if suf = ['G', 'i', 'B'] then some (1024 * 1024 * 1024)
  else if suf = ['T', 'i', 'B'] then some (1024 * 1024 * 1024 * 1024)
  else if suf = ['K', 'B'] then some 1000
  else if suf = ['M', 'B'] then some 1000000
  else if suf = ['G', 'B'] then some 1000000000
  else if suf = ['T', 'B'] then some 1000000000000
  else none

/-- Modelled from the spec: Format::parseBytes — parse a token such as
"4.12MiB" as a byte count; a negative result signals failure. -/
def parseBytes (cs : QStr) : Int :=
  let numPart := cs.takeWhile (fun c => c.isDigit || c = '.')
  let suffix := cs.dropWhile (fun c => c.isDigit || c = '.')
  match parseDecCore numPart, byteSuffixMult suffix with
  | some (n, d), some m => ((n * m) / d : Nat)
  | _, _ => -1

/-- Ceiling of a / b on naturals for positive b. -/
def ceilDivNat (a b : Nat) : Nat := (a + b - 1) / b

/-! ### Association-list model of QMap

QMap is used with QString keys (dump map) and StreamFormatId keys (size
map).  Only insert / contains / value / count are exercised.  Keys are
compared with the key type's equality (for StreamFormatId the source
compares string forms), passed in as eqk.  QMap::insert replaces the value
of an already-present equivalent key. -/

section QMapModel

variable {K V : Type} (eqk : K → K → Bool)

/-- QMap::insert: replace the value at an equivalent key, else add. -/
def qInsert (k : K) (v : V) : List (K × V) → List (K × V)
  | [] => [(k, v)]
  | p :: m => if eqk p.1 k then (p.1, v) :: m else p :: qInsert k v m

/-- Lookup of the value stored at an equivalent key. -/
def qLookup (k : K) : List (K × V) → Option V
  | [] => none
  | p :: m => if eqk p.1 k then some p.2 else qLookup k m

/-- QMap::value with a default. -/
def qValueD (k : K) (d : V) (m : List (K × V)) : V :=
  (qLookup eqk k m).getD d

/-- QMap::contains. -/
def qContainsKey (k : K) (m : List (K × V)) : Bool :=
  m.any (fun p => eqk p.1 k)

end QMapModel

/-- Equality of QString keys. -/
def strBeq (a b : QStr) : Bool := a = b

/-! ### StreamFormatId, StreamFormat, StreamInfo (data model) -/

/-- StreamFormatId: the ordered token list m_identifiers. -/
structure StreamFormatId where
  identifiers : List QStr
deriving DecidableEq

/-- StreamFormatId::fromString / the QString constructor: split on
the plus sign, skipping empty parts. -/
def fidFromString (s : QStr) : StreamFormatId :=
  ⟨wordsBy (fun c => c = '+') s⟩

/-- StreamFormatId::toString: tokens joined with the plus sign. -/
def fidToString (id : StreamFormatId) : QStr :=
  joinSep '+' id.identifiers

/-- StreamFormatId::operator== compares string forms. -/
def fidBeq (a b : StreamFormatId) : Bool :=
  fidToString a = fidToString b

/-- StreamFormatId::compoundIds: one StreamFormatId per token, built
through the string constructor. -/
def fidCompoundIds (id : StreamFormatId) : List StreamFormatId :=
  id.identifiers.map fidFromString

/-- StreamFormatId::isEmpty. -/
def fidIsEmpty (id : StreamFormatId) : Bool :=
  id.identifiers.isEmpty

/-- The sentinel "none" used for absent codecs. -/
def cNone : QStr := "none".toList

/-- StreamFormat: one atomic track description. -/
structure StreamFormat where
  formatId : StreamFormatId := ⟨[]⟩
  ext : QStr := []
  format_note : QStr := []
  filesize : Int := 0
  acodec : QStr := []
  abr : Int := 0
  asr : Int := 0
  vcodec : QStr := []
  width : Int := 0
  height : Int := 0
  fps : Int := 0
  tbr : Int := 0
deriving DecidableEq

/-- StreamFormat::hasVideo. -/
def hasVideo (f : StreamFormat) : Bool := !(f.vcodec = cNone)

/-- StreamFormat::hasMusic. -/
def hasMusic (f : StreamFormat) : Bool := !(f.acodec = cNone)

/-- Error status of a StreamInfo. -/
inductive StreamError where
  | noError
  | errorJsonFormat
  | errorUnavailable
deriving DecidableEq

/-- StreamInfo: metadata record of one media resource; the default
values are those of the default constructor (everything empty,
error = NoError). -/
structure StreamInfo where
  id : QStr := []
  filenameRaw : QStr := []
  webpage_url : QStr := []
  fulltitle : QStr := []
  defaultTitle : QStr := []
  defaultSuffix : QStr := []
  description : QStr := []
  thumbnail : QStr := []
  extractor : QStr := []
  extractor_key : QStr := []
  defaultFormatId : StreamFormatId := ⟨[]⟩
  formats : List StreamFormat := []
  playlist : QStr := []
  playlist_index : QStr := []
  error : StreamError := .noError
  userTitle : QStr := []
  userSuffix : QStr := []
  userFormatId : StreamFormatId := ⟨[]⟩
deriving DecidableEq

/-- StreamInfo::title: the user override when set, else the default. -/
def title (si : StreamInfo) : QStr :=
  if si.userTitle.isEmpty then si.defaultTitle else si.userTitle

/-- StreamInfo::formatId: the user override when set, else the default. -/
def formatIdOf (si : StreamInfo) : StreamFormatId :=
  if si.userFormatId.identifiers.isEmpty then si.defaultFormatId
  else si.userFormatId

/-- StreamInfo::guestimateFullSize(formatId): -1 for an empty id, else
the sum over the compound atoms of the filesize registered for the atom
in a map built from the formats, with 0 for missing atoms. -/
def guestimateFullSize (si : StreamInfo) (formatId : StreamFormatId) : Int :=
  if fidIsEmpty formatId then -1
  else
    let sizes := si.formats.foldl
      (fun m f => qInsert fidBeq f.formatId f.filesize m) []
    (fidCompoundIds formatId).foldl
      (fun acc id => acc + qValueD fidBeq id 0 sizes) 0

/-! ### Filename sanitization -/

/-- The fixed legal character set of cleanFileName
(C_LEGAL_CHARS = "-+' @()[]{}°#,.&", written out character by
character). -/
def legalChars : QStr :=
  ['-', '+', Char.ofNat 39, ' ', '@', '(', ')', '[', ']',
   Char.ofNat 123, Char.ofNat 125, '°', '#', ',', '.', '&']

/-- The per-character replacement of cleanFileName: keep letters, digits
and the legal set, turn a double quote into a single quote, anything
else into an underscore.  QChar::isLetterOrNumber (full Unicode
classification in Qt) is passed in as a parameter. -/
def trChar (isLN : Char → Bool) (c : Char) : Char :=
  if isLN c || legalChars.contains c then c
  else if c = Char.ofNat 34 then Char.ofNat 39
  else '_'

/-- cleanFileName: simplify, map characters, collapse underscore runs,
simplify again. -/
def cleanFileName (isLN : Char → Bool) (fileName : QStr) : QStr :=
  qSimplified (collapseUS ((qSimplified fileName).map (trChar isLN)))

/-- QChar::isLetterOrNumber restricted to the ASCII range (letters and
digits), used to instantiate the classification parameter on concrete
inputs. -/
def asciiLetterOrNumber (c : Char) : Bool := c.isAlpha || c.isDigit

/-- StreamInfo::fileBaseName: the sanitized title. -/
def fileBaseName (isLN : Char → Bool) (si : StreamInfo) : QStr :=
  cleanFileName isLN (title si)

/-! ### Host-pattern matching -/

/-- The QRegExp("[.|:]") delimiter class used for the pattern: inside a
character class the bar is a literal character, so the delimiters are
dot, bar and colon. -/
def delimDotBarColon (c : Char) : Bool := c = '.' || c = '|' || c = ':'

/-- The static matches(host, regexHost) helper: every mandatory token of
the pattern must appear, case-insensitively, among the dot-components of
the host. -/
def hostMatches (host regexHost : QStr) : Bool :=
  let domains := wordsBy (fun c => c = '.') host
  let mandatoryDomains := wordsBy delimDotBarColon regexHost
  mandatoryDomains.all (fun m => domains.any (fun d => lowerStr d = lowerStr m))

/-- Stream::matchesHost: true when any pattern of the list matches. -/
def matchesHost (host : QStr) (regexHosts : List QStr) : Bool :=
  regexHosts.any (fun r => hostMatches host r)

/-! ### DownloadDriver (class Stream): progress-parsing state -/

/-- The byte counters of a Stream object (the other members play no role
in progress parsing). -/
structure StreamState where
  bytesReceived : Int := 0
  bytesReceivedCurrentSection : Int := 0
  bytesTotal : Int := 0
  bytesTotalCurrentSection : Int := 0
deriving DecidableEq

/-- The counters after Stream::clear(). -/
def clearState : StreamState := {}

/-- Stream::_q_bytesTotal: the cumulative total when known, else the
current section's total. -/
def qBytesTotal (s : StreamState) : Int :=
  if 0 < s.bytesTotal then s.bytesTotal else s.bytesTotalCurrentSection

/-- The lowercase "[download]" message header. -/
def dlHeader : QStr := "[download]".toList

/-- The "Destination:" section marker. -/
def destMarker : QStr := "Destination:".toList

/-- The "of" token of a progress line. -/
def ofToken : QStr := "of".toList

/-- Ghost classification of how Stream::parseStandardOutput handled a
line (which branch was taken); carries no information used by the
parser itself. -/
inductive PLine where
  | silent
  | dest
  | progOk (newBrcs : Int)
  | progFail
  | fall
deriving DecidableEq

/-- Stream::parseStandardOutput on one line, with the resulting state,
the emitted downloadProgress(received, total) pairs, and a ghost tag
naming the branch taken.  The double arithmetic
qCeil(percent * total / 100.0) is modelled exactly on the parsed
numerator/denominator.  As in the source, a failing size parse stores
the negative parse result in bytesTotalCurrentSection before returning. -/
def parseStdOutFull (s : StreamState) (data : QStr) :
    StreamState × List (Int × Int) × PLine :=
  let tokens := wordsBy (fun c => c = ' ') data
  if tokens.isEmpty then (s, [], .silent)
  else if !(decide (lowerStr (tokens.getD 0 []) = dlHeader)) then (s, [], .silent)
  else if decide (2 < tokens.length) && decide (tokens.getD 1 [] = destMarker) then
    let br := s.bytesReceived + s.bytesReceivedCurrentSection
    let s1 : StreamState := { s with bytesReceived := br }
    (s1, [(br, qBytesTotal s1)], .dest)
  else if decide (3 < tokens.length) && (tokens.getD 1 []).contains '%'
      && decide (tokens.getD 2 [] = ofToken) then
    let pct := parsePercentDecimal (tokens.getD 1 [])
    if pct.1 < 0 then (s, [], .progFail)
    else
      let sz := parseBytes (tokens.getD 3 [])
      let s1 : StreamState := { s with bytesTotalCurrentSection := sz }
      if sz < 0 then (s1, [], .progFail)
      else
        let brcs : Int := (ceilDivNat (pct.1.toNat * sz.toNat) (pct.2 * 100) : Nat)
        let s2 : StreamState := { s1 with bytesReceivedCurrentSection := brcs }
        let received := s2.bytesReceived + s2.bytesReceivedCurrentSection
        (s2, [(received, qBytesTotal s2)], .progOk brcs)
  else
    let received := s.bytesReceived + s.bytesReceivedCurrentSection
    (s, [(received, qBytesTotal s)], .fall)

/-- Stream::parseStandardOutput: state transition and emissions. -/
def parseStandardOutput (s : StreamState) (data : QStr) :
    StreamState × List (Int × Int) :=
  ((parseStdOutFull s data).1, (parseStdOutFull s data).2.1)

/-- Run the progress parser over a sequence of stdout lines, collecting
all emitted downloadProgress pairs in order. -/
def runParse (s : StreamState) : List QStr → StreamState × List (Int × Int)
  | [] => (s, [])
  | l :: rest =>
    let r := parseStdOutFull s l
    let rr := runParse r.1 rest
    (rr.1, r.2.1 ++ rr.2)

/-- The received arguments of the downloadProgress emissions of a run. -/
def receivedsOf (s : StreamState) (lines : List QStr) : List Int :=
  (runParse s lines).2.map Prod.fst

/-- Side condition for the amended monotonicity claim: walks the run and
checks that (a) within one section, successive well-formed progress lines
yield non-decreasing section-received values, and (b) no bare
"[download]" line is re-emitted between a section start and the first
progress line of the new section while a stale positive section counter
is pending. -/
def runOk : StreamState → Bool → List QStr → Bool
  | _, _, [] => true
  | s, fresh, l :: rest =>
    let r := parseStdOutFull s l
    match r.2.2 with
    | .dest => runOk r.1 true rest
    | .progOk b =>
        (fresh || decide (s.bytesReceivedCurrentSection ≤ b)) && runOk r.1 false rest
    | .fall =>
        (!fresh || decide (s.bytesReceivedCurrentSection = 0)) && runOk r.1 fresh rest
    | _ => runOk r.1 fresh rest

/-- Non-decreasing check for a list of integers with a lower bound on
its first element. -/
def nonDecrFrom (x : Int) : List Int → Bool
  | [] => true
  | y :: ys => decide (x ≤ y) && nonDecrFrom y ys

/-- Non-decreasing check for a list of integers. -/
def nonDecr : List Int → Bool
  | [] => true
  | y :: ys => nonDecrFrom y ys

/-! ### MetadataCollector (StreamInfoDownloader) -/

/-- A flat-playlist entry. -/
structure FlatItem where
  _type : QStr := []
  id : QStr := []
  ie_key : QStr := []
  title : QStr := []
  url : QStr := []
deriving DecidableEq

/-- The dump result: a map from stream id to StreamInfo. -/
abbrev DumpMap := List (QStr × StreamInfo)

/-- getStreamId: substring of an "ERROR: <id>: <reason>" line between
the first and second colon, trimmed; empty when there are fewer than two
colon-separated parts. -/
def getStreamId (data : QStr) : QStr :=
  match wordsBy (fun c => c = ':') data with
  | _ :: v :: _ => qTrimmed v
  | _ => []

/-- StreamInfoDownloader::parseDumpItemStdErr: a default StreamInfo
carrying the id recovered from the stderr line and error Unavailable. -/
def parseDumpItemStdErrM (data : QStr) : StreamInfo :=
  { id := getStreamId data, error := .errorUnavailable }

/-- StreamInfoDownloader::parseDumpMap: insert an entry per non-empty
stdout line, then an entry per non-empty stderr line, into one id-keyed
map.  The JSON decoding of a stdout line (parseDumpItemStdOut, which
relies on Qt's JSON parser) is passed in as the parameter pOut. -/
def parseDumpMapM (pOut : QStr → StreamInfo) (stdoutBytes stderrBytes : QStr) :
    DumpMap :=
  let m := (splitKeep '\n' stdoutBytes).foldl
    (fun m line =>
      if line.isEmpty then m
      else
        let si := pOut line
        qInsert strBeq si.id si m) []
  (splitKeep '\n' stderrBytes).foldl
    (fun m line =>
      if line.isEmpty then m
      else
        let si := parseDumpItemStdErrM line
        qInsert strBeq si.id si m) m

/-- StreamInfoDownloader::parseFlatList: keep, in order, the items of
the non-empty stdout lines whose parsed id is non-empty; stderr is only
logged.  The JSON decoding of one line (parseFlatItem) is passed in as
the parameter pItem. -/
def parseFlatListM (pItem : QStr → FlatItem) (stdoutBytes _stderrBytes : QStr) :
    List FlatItem :=
  (splitKeep '\n' stdoutBytes).foldl
    (fun l line =>
      if line.isEmpty then l
      else
        let item := pItem line
        if item.id.isEmpty then l else l ++ [item]) []

/-- StreamInfoDownloader::createStreamInfo: the dump entry when the flat
item's id is non-empty and present in the map, else an Unavailable stub;
then fill a missing defaultTitle from the flat title and a missing
webpage_url from the flat url. -/
def createStreamInfoM (dumpMap : DumpMap) (flatItem : FlatItem) : StreamInfo :=
  let si :=
    if !flatItem.id.isEmpty && qContainsKey strBeq flatItem.id dumpMap then
      qValueD strBeq flatItem.id {} dumpMap
    else
      { error := .errorUnavailable }
  let si :=
    if si.defaultTitle.isEmpty then { si with defaultTitle := flatItem.title } else si
  if si.webpage_url.isEmpty then { si with webpage_url := flatItem.url } else si

/-- The walk of StreamInfoDownloader::onFinished over the flat list: a
counter is incremented before each item and written into
playlist_index. -/
def collectWalk (dumpMap : DumpMap) : Nat → List FlatItem → List StreamInfo
  | _, [] => []
  | idx, it :: rest =>
    let i := idx + 1
    let si := createStreamInfoM dumpMap it
    { si with playlist_index := natChars i } :: collectWalk dumpMap i rest

/-- Outcome emitted by the collector's onFinished barrier. -/
inductive CollectorOut where
  | collected (l : List StreamInfo)
  | errCancelled
deriving DecidableEq

/-- StreamInfoDownloader::onFinished: the cancelled error, or the
reconciled list once both the dump map and the flat list are non-empty,
or nothing (still waiting for the other process). -/
def onFinishedEmission (dumpMap : DumpMap) (flatList : List FlatItem)
    (cancelled : Bool) : Option CollectorOut :=
  if cancelled then some .errCancelled
  else if !dumpMap.isEmpty && !flatList.isEmpty then
    some (.collected (collectWalk dumpMap 0 flatList))
  else none

/-! ### Collector lifecycle state machine (for the purge-retry bound) -/

/-- State of a StreamInfoDownloader together with its owned
StreamCleanCache; purgeCount is a ghost counter of how many times the
purge-and-retry branch of onFinishedDumpJson has been entered. -/
structure CollectorState where
  url : QStr := []
  cancelled : Bool := false
  dumpMap : DumpMap := []
  flatList : List FlatItem := []
  dumpRunning : Bool := false
  flatRunning : Bool := false
  cleanRunning : Bool := false
  isCleaned : Bool := false
  purgeCount : Nat := 0

/-- StreamInfoDownloader::stop: kill both children, clear buffered
state, arm the cancelled flag. -/
def collectorStop (st : CollectorState) : CollectorState :=
  { st with dumpRunning := false, flatRunning := false,
            dumpMap := [], flatList := [], cancelled := true }

/-- StreamInfoDownloader::runAsync: reset buffers and the cancelled
flag, then start whichever of the two probe processes is not running. -/
def collectorRunAsync (st : CollectorState) (url : QStr) : CollectorState :=
  let st := { st with url := url, cancelled := false, dumpMap := [], flatList := [] }
  let st := if !st.dumpRunning then { st with dumpRunning := true } else st
  if !st.flatRunning then { st with flatRunning := true } else st

/-- External events delivered to the collector: terminal events of the
three child processes (exit code and whether the exit was normal), and a
consumer stop request.  A finished event for a process that is not
running is stale and ignored. -/
inductive CollectorEv where
  | dumpDone (exitCode : Int) (normalExit : Bool) (sout serr : QStr)
  | flatDone (exitCode : Int) (normalExit : Bool) (sout serr : QStr)
  | cleanDone (exitCode : Int) (normalExit : Bool)
  | stopReq

/-- One step of the collector state machine: the slots
onFinishedDumpJson, onFinishedFlatList, StreamCleanCache::onFinished
followed by onCacheCleaned, and stop().  Emissions (collected / error)
do not feed back into the state and are omitted here. -/
def collectorStep (pOut : QStr → StreamInfo) (pItem : QStr → FlatItem)
    (st : CollectorState) : CollectorEv → CollectorState
  | .dumpDone code normal sout serr =>
    if !st.dumpRunning then st
    else
      let st1 := { st with dumpRunning := false }
      if normal then
        let m := parseDumpMapM pOut sout serr
        let st2 := { st1 with dumpMap := m }
        if !(decide (code = 0)) && !st2.isCleaned && !(decide (1 < m.length)) then
          let st3 := collectorStop st2
          let st4 := if !st3.cleanRunning then { st3 with cleanRunning := true } else st3
          { st4 with purgeCount := st4.purgeCount + 1 }
        else st2
      else st1
  | .flatDone code normal sout serr =>
    if !st.flatRunning then st
    else
      let st1 := { st with flatRunning := false }
      if normal && decide (code = 0) then
        { st1 with flatList := parseFlatListM pItem sout serr }
      else st1
  | .cleanDone _ _ =>
    if !st.cleanRunning then st
    else
      let st1 := { st with cleanRunning := false, isCleaned := true }
      collectorRunAsync st1 st1.url
  | .stopReq => collectorStop st

/-- Fold the collector over a sequence of delivered events. -/
def collectorRun (pOut : QStr → StreamInfo) (pItem : QStr → FlatItem)
    (st : CollectorState) : List CollectorEv → CollectorState
  | [] => st
  | e :: es => collectorRun pOut pItem (collectorStep pOut pItem st e) es

/-! ### Spec-side formulations used to state refinement claims -/

/-- The filesize of the format whose formatId equals the given atom, 0
when there is none (the summand of the size-estimation claim). -/
def specFilesize (formats : List StreamFormat) (id : StreamFormatId) : Int :=
  match formats.find? (fun f => fidBeq f.formatId id) with
  | some f => f.filesize
  | none => 0

/-- The reconciliation of one flat item as the specification words it:
the dump entry for the item's id when present, else an Unavailable stub;
a missing defaultTitle filled from the flat title, a missing webpage_url
from the flat url, and playlist_index set to the 1-based position. -/
def specReconcile (dumpMap : DumpMap) (i : Nat) (it : FlatItem) : StreamInfo :=
  let si :=
    match qLookup strBeq it.id dumpMap with
    | some si => si
    | none => { error := .errorUnavailable }
  let si :=
    if si.defaultTitle.isEmpty then { si with defaultTitle := it.title } else si
  let si :=
    if si.webpage_url.isEmpty then { si with webpage_url := it.url } else si
  { si with playlist_index := natChars (i + 1) }

end ArrowDl

namespace ArrowDl

/-! ### Lemmas about splitting and joining -/

theorem wordsByAcc_words (p : Char → Bool) :
    ∀ (l acc : QStr), (∀ c ∈ acc, p c = false) →
      ∀ w ∈ wordsByAcc p l acc, w ≠ [] ∧ ∀ c ∈ w, p c = false := by
  intro l
  induction l with
  | nil =>
    intro acc hacc w hw
    simp only [wordsByAcc] at hw
    by_cases h : acc.isEmpty
    · simp [h] at hw
    · simp only [h, if_neg, Bool.false_eq_true, ite_false, List.mem_singleton] at hw
      subst hw
      refine ⟨?_, ?_⟩
      · simp only [ne_eq, List.reverse_eq_nil_iff]
        exact fun hx => by simp [hx] at h
      · intro c hc
        exact hacc c (List.mem_reverse.mp hc)
  | cons a l ih =>
    intro acc hacc w hw
    simp only [wordsByAcc] at hw
    by_cases hpa : p a
    · simp only [hpa, if_true] at hw
      by_cases hae : acc.isEmpty
      · simp only [hae, if_true] at hw
        exact ih [] (by simp) w hw
      · simp only [hae, Bool.false_eq_true, ite_false, List.mem_cons] at hw
        rcases hw with hw | hw
        · subst hw
          refine ⟨?_, ?_⟩
          · simp only [ne_eq, List.reverse_eq_nil_iff]
            exact fun hx => by simp [hx] at hae
          · intro c hc
            exact hacc c (List.mem_reverse.mp hc)
        · exact ih [] (by simp) w hw
    · simp only [hpa, Bool.false_eq_true, ite_false] at hw
      refine ih (a :: acc) ?_ w hw
      intro c hc
      rcases List.mem_cons.mp hc with h | h
      · subst h
        simpa using hpa
      · exact hacc c h

theorem wordsBy_words (p : Char → Bool) (l : QStr) :
    ∀ w ∈ wordsBy p l, w ≠ [] ∧ ∀ c ∈ w, p c = false :=
  wordsByAcc_words p l [] (by simp)

theorem wordsByAcc_mem_chars (p : Char → Bool) :
    ∀ (l acc : QStr), ∀ w ∈ wordsByAcc p l acc, ∀ c ∈ w, c ∈ l ∨ c ∈ acc := by
  intro l
  induction l with
  | nil =>
    intro acc w hw c hc
    simp only [wordsByAcc] at hw
    by_cases h : acc.isEmpty
    · simp [h] at hw
    · simp only [h, Bool.false_eq_true, ite_false, List.mem_singleton] at hw
      subst hw
      exact Or.inr (List.mem_reverse.mp hc)
  | cons a l ih =>
    intro acc w hw c hc
    simp only [wordsByAcc] at hw
    by_cases hpa : p a
    · simp only [hpa, if_true] at hw
      by_cases hae : acc.isEmpty
      · simp only [hae, if_true] at hw
        rcases ih [] w hw c hc with h | h
        · exact Or.inl (List.mem_cons_of_mem a h)
        · simp at h
      · simp only [hae, Bool.false_eq_true, ite_false, List.mem_cons] at hw
        rcases hw with hw | hw
        · subst hw
          exact Or.inr (List.mem_reverse.mp hc)
        · rcases ih [] w hw c hc with h | h
          · exact Or.inl (List.mem_cons_of_mem a h)
          · simp at h
    · simp only [hpa, Bool.false_eq_true, ite_false] at hw
      rcases ih (a :: acc) w hw c hc with h | h
      · exact Or.inl (List.mem_cons_of_mem a h)
      · rcases List.mem_cons.mp h with h | h
        · exact Or.inl (by simp [h])
        · exact Or.inr h

theorem wordsBy_mem_chars (p : Char → Bool) (l : QStr) :
    ∀ w ∈ wordsBy p l, ∀ c ∈ w, c ∈ l := by
  intro w hw c hc
  rcases wordsByAcc_mem_chars p l [] w hw c hc with h | h
  · exact h
  · simp at h

theorem wordsByAcc_eq_nil (p : Char → Bool) :
    ∀ (l acc : QStr), wordsByAcc p l acc = [] →
      acc = [] ∧ ∀ c ∈ l, p c = true := by
  intro l
  induction l with
  | nil =>
    intro acc h
    simp only [wordsByAcc] at h
    by_cases hae : acc.isEmpty
    · exact ⟨List.isEmpty_iff.mp hae, by simp⟩
    · simp [hae] at h
  | cons a l ih =>
    intro acc h
    simp only [wordsByAcc] at h
    by_cases hpa : p a
    · simp only [hpa, if_true] at h
      by_cases hae : acc.isEmpty
      · simp only [hae, if_true] at h
        refine ⟨List.isEmpty_iff.mp hae, ?_⟩
        intro c hc
        rcases List.mem_cons.mp hc with hc | hc
        · subst hc; exact hpa
        · exact (ih [] h).2 c hc
      · simp [hae] at h
    · simp only [hpa, Bool.false_eq_true, ite_false] at h
      exact absurd (ih (a :: acc) h).1 (by simp)

theorem wordsByAcc_all_delims (p : Char → Bool) :
    ∀ (l : QStr), (∀ c ∈ l, p c = true) → wordsByAcc p l [] = [] := by
  intro l
  induction l with
  | nil => intro _; simp [wordsByAcc]
  | cons a l ih =>
    intro h
    have hpa : p a = true := h a (by simp)
    simp only [wordsByAcc, hpa, if_true, List.isEmpty_nil]
    exact ih (fun c hc => h c (List.mem_cons_of_mem a hc))

theorem wordsBy_eq_nil_of_sub (p q : Char → Bool) (l : QStr)
    (hsub : ∀ c, p c = true → q c = true) (h : wordsBy p l = []) :
    wordsBy q l = [] := by
  have hall := (wordsByAcc_eq_nil p l [] h).2
  exact wordsByAcc_all_delims q l (fun c hc => hsub c (hall c hc))

theorem wordsByAcc_consume (p : Char → Bool) :
    ∀ (w : QStr), (∀ c ∈ w, p c = false) →
      ∀ (rest acc : QStr),
        wordsByAcc p (w ++ rest) acc = wordsByAcc p rest (w.reverse ++ acc) := by
  intro w
  induction w with
  | nil => intro _ rest acc; simp
  | cons a w ih =>
    intro h rest acc
    have hpa : p a = false := h a (by simp)
    have hstep : (a :: w) ++ rest = a :: (w ++ rest) := rfl
    rw [hstep]
    simp only [wordsByAcc, hpa, Bool.false_eq_true, ite_false]
    rw [ih (fun c hc => h c (List.mem_cons_of_mem a hc)) rest (a :: acc)]
    simp

theorem wordsBy_single_word (p : Char → Bool) (w : QStr)
    (hne : w ≠ []) (hw : ∀ c ∈ w, p c = false) :
    wordsBy p w = [w] := by
  have h1 : wordsBy p w = wordsByAcc p (w ++ []) [] := by simp [wordsBy]
  rw [h1, wordsByAcc_consume p w hw [] []]
  simp only [wordsByAcc, List.append_nil]
  have h2 : w.reverse.isEmpty = false := by
    simp [List.isEmpty_eq_false, hne]
  simp [h2]

theorem wordsBy_joinSep (p : Char → Bool) (sep : Char) (hsep : p sep = true) :
    ∀ (ws : List QStr), (∀ w ∈ ws, w ≠ [] ∧ ∀ c ∈ w, p c = false) →
      wordsBy p (joinSep sep ws) = ws := by
  intro ws
  induction ws with
  | nil => intro _; simp [joinSep, wordsBy, wordsByAcc]
  | cons w ws ih =>
    intro h
    rcases h w (by simp) with ⟨hwne, hwch⟩
    cases ws with
    | nil =>
      simpa [joinSep] using wordsBy_single_word p w hwne hwch
    | cons v vs =>
      have hrest : ∀ u ∈ v :: vs, u ≠ [] ∧ ∀ c ∈ u, p c = false :=
        fun u hu => h u (List.mem_cons_of_mem w hu)
      simp only [joinSep]
      have h1 : wordsBy p (w ++ sep :: joinSep sep (v :: vs)) =
          wordsByAcc p (sep :: joinSep sep (v :: vs)) (w.reverse ++ []) := by
        simp only [wordsBy]
        exact wordsByAcc_consume p w hwch _ []
      rw [h1]
      have h2 : (w.reverse ++ ([] : QStr)).isEmpty = false := by
        simp [List.isEmpty_eq_false, hwne]
      simp only [wordsByAcc, hsep, if_true, h2, Bool.false_eq_true, ite_false]
      rw [show (w.reverse ++ ([] : QStr)).reverse = w by simp]
      rw [show wordsByAcc p (joinSep sep (v :: vs)) [] = wordsBy p (joinSep sep (v :: vs)) from rfl]
      rw [ih hrest]

theorem mem_joinSep (sep : Char) :
    ∀ (ws : List QStr) (c : Char), c ∈ joinSep sep ws →
      c = sep ∨ ∃ w ∈ ws, c ∈ w := by
  intro ws
  induction ws with
  | nil => intro c hc; simp [joinSep] at hc
  | cons w ws ih =>
    intro c hc
    cases ws with
    | nil =>
      simp only [joinSep] at hc
      exact Or.inr ⟨w, by simp, hc⟩
    | cons v vs =>
      simp only [joinSep] at hc
      rcases List.mem_append.mp hc with h | h
      · exact Or.inr ⟨w, by simp, h⟩
      · rcases List.mem_cons.mp h with h | h
        · exact Or.inl h
        · rcases ih c h with h | ⟨u, hu, hcu⟩
          · exact Or.inl h
          · exact Or.inr ⟨u, List.mem_cons_of_mem w hu, hcu⟩

theorem joinSep_ne_nil (sep : Char) (w : QStr) (ws : List QStr) (hw : w ≠ []) :
    joinSep sep (w :: ws) ≠ [] := by
  cases ws with
  | nil => simpa [joinSep] using hw
  | cons v vs =>
    simp only [joinSep]
    cases w with
    | nil => exact absurd rfl hw
    | cons a l => simp

theorem head?_joinSep (sep : Char) (w : QStr) (ws : List QStr) (hw : w ≠ []) :
    (joinSep sep (w :: ws)).head? = w.head? := by
  cases ws with
  | nil => simp [joinSep]
  | cons v vs =>
    simp only [joinSep]
    cases w with
    | nil => exact absurd rfl hw
    | cons a l => simp

theorem mem_of_getLast?Some {l : QStr} {c : Char} (h : l.getLast? = some c) :
    c ∈ l := by
  rcases List.mem_getLast?_eq_getLast (show c ∈ l.getLast? from h) with ⟨hne, rfl⟩
  exact List.getLast_mem hne

theorem getLast?_joinSep (p : Char → Bool) (sep : Char) :
    ∀ (ws : List QStr), (∀ w ∈ ws, w ≠ [] ∧ ∀ c ∈ w, p c = false) →
      ∀ c, (joinSep sep ws).getLast? = some c → p c = false := by
  intro ws
  induction ws with
  | nil => intro _ c hc; simp [joinSep] at hc
  | cons w ws ih =>
    intro h c hc
    cases ws with
    | nil =>
      simp only [joinSep] at hc
      rcases h w (by simp) with ⟨_, hwch⟩
      exact hwch c (mem_of_getLast?Some hc)
    | cons v vs =>
      simp only [joinSep] at hc
      have hvne : v ≠ [] := (h v (by simp)).1
      have hjoin : joinSep sep (v :: vs) ≠ [] := joinSep_ne_nil sep v vs hvne
      rw [List.getLast?_append_of_ne_nil _ (by simp)] at hc
      have h2 : (sep :: joinSep sep (v :: vs)).getLast? =
          (joinSep sep (v :: vs)).getLast? := by
        have := List.getLast?_append_of_ne_nil [sep] hjoin
        simpa using this
      rw [h2] at hc
      exact ih (fun u hu => h u (List.mem_cons_of_mem w hu)) c hc

/-! ### Lemmas about adjacent duplicate characters -/

theorem noDoubleChar_cons (u a : Char) (l : QStr) :
    noDoubleChar u (a :: l) =
      (!(decide (a = u) && headIs u l) && noDoubleChar u l) := by
  cases l with
  | nil => simp [noDoubleChar, headIs]
  | cons b t => simp [noDoubleChar, headIs]

theorem noDoubleChar_tail {u a : Char} {l : QStr}
    (h : noDoubleChar u (a :: l) = true) : noDoubleChar u l = true := by
  rw [noDoubleChar_cons] at h
  exact (Bool.and_eq_true _ _ ▸ h).2

theorem noDoubleChar_of_not_mem (u : Char) (l : QStr)
    (h : ∀ c ∈ l, ¬c = u) : noDoubleChar u l = true := by
  induction l with
  | nil => rfl
  | cons a l ih =>
    rw [noDoubleChar_cons]
    have ha : ¬a = u := h a (by simp)
    rw [decide_eq_false ha]
    simp only [Bool.false_and, Bool.not_false, Bool.true_and]
    exact ih (fun c hc => h c (List.mem_cons_of_mem a hc))

theorem headIs_append (u : Char) (xs ys : QStr) (h : xs ≠ []) :
    headIs u (xs ++ ys) = headIs u xs := by
  cases xs with
  | nil => exact absurd rfl h
  | cons a t => rfl

theorem headIs_false_of_not_mem {u : Char} {l : QStr}
    (h : ∀ c ∈ l, ¬c = u) : headIs u l = false := by
  cases l with
  | nil => rfl
  | cons a t => simpa [headIs] using h a (by simp)

theorem lastIs_cons_cons (u a b : Char) (t : QStr) :
    lastIs u (a :: b :: t) = lastIs u (b :: t) := by
  simp only [lastIs, List.reverse_cons]
  exact headIs_append u (t.reverse ++ [b]) [a] (by simp)

theorem lastIs_single (u a : Char) : lastIs u [a] = decide (a = u) := rfl

theorem nd_append (u : Char) :
    ∀ (xs ys : QStr), noDoubleChar u xs = true → noDoubleChar u ys = true →
      (lastIs u xs && headIs u ys) = false → noDoubleChar u (xs ++ ys) = true := by
  intro xs
  induction xs with
  | nil => intro ys _ hy _; simpa using hy
  | cons a xs ih =>
    intro ys hx hy hmid
    cases xs with
    | nil =>
      have hstep : ([a] : QStr) ++ ys = a :: ys := rfl
      rw [hstep, noDoubleChar_cons]
      rw [lastIs_single] at hmid
      simp only [hmid, Bool.not_false, Bool.true_and]
      exact hy
    | cons b t =>
      have hstep : (a :: b :: t) ++ ys = a :: ((b :: t) ++ ys) := rfl
      rw [hstep, noDoubleChar_cons]
      rw [noDoubleChar_cons] at hx
      rcases Bool.and_eq_true _ _ |>.mp hx with ⟨hx1, hx2⟩
      have hh : headIs u ((b :: t) ++ ys) = headIs u (b :: t) :=
        headIs_append u (b :: t) ys (by simp)
      rw [hh]
      have hrest : noDoubleChar u ((b :: t) ++ ys) = true := by
        refine ih ys hx2 hy ?_
        rwa [lastIs_cons_cons] at hmid
      simp only [hrest, Bool.and_true]
      exact hx1

theorem nd_of_append_right (u : Char) :
    ∀ (xs ys : QStr), noDoubleChar u (xs ++ ys) = true →
      noDoubleChar u ys = true := by
  intro xs
  induction xs with
  | nil => intro ys h; simpa using h
  | cons a xs ih =>
    intro ys h
    exact ih ys (noDoubleChar_tail h)

theorem nd_append_single (u : Char) :
    ∀ (xs : QStr) (a : Char), noDoubleChar u (xs ++ [a]) =
      (noDoubleChar u xs && !(lastIs u xs && decide (a = u))) := by
  intro xs
  induction xs with
  | nil =>
    intro a
    simp [noDoubleChar, lastIs, headIs]
  | cons b xs ih =>
    intro a
    cases xs with
    | nil =>
      show noDoubleChar u [b, a] = _
      simp [noDoubleChar, lastIs, headIs, Bool.and_comm]
    | cons c t =>
      have hstep : (b :: c :: t) ++ [a] = b :: ((c :: t) ++ [a]) := rfl
      rw [hstep]
      rw [show noDoubleChar u (b :: ((c :: t) ++ [a])) =
          (!(decide (b = u) && headIs u ((c :: t) ++ [a])) &&
            noDoubleChar u ((c :: t) ++ [a])) from noDoubleChar_cons u b _]
      rw [ih a]
      rw [show noDoubleChar u (b :: c :: t) =
          (!(decide (b = u) && headIs u (c :: t)) && noDoubleChar u (c :: t))
          from noDoubleChar_cons u b _]
      rw [lastIs_cons_cons]
      rw [headIs_append u (c :: t) [a] (by simp)]
      cases h1 : decide (b = u) <;> cases h2 : headIs u (c :: t) <;>
        cases h3 : noDoubleChar u (c :: t) <;>
        cases h4 : lastIs u (c :: t) <;> cases h5 : decide (a = u) <;> rfl

theorem lastIs_reverse (u : Char) (l : QStr) :
    lastIs u l.reverse = headIs u l := by
  simp [lastIs, List.reverse_reverse]

theorem nd_reverse (u : Char) :
    ∀ (l : QStr), noDoubleChar u l.reverse = noDoubleChar u l := by
  intro l
  induction l with
  | nil => rfl
  | cons a l ih =>
    rw [List.reverse_cons, nd_append_single, ih, lastIs_reverse, noDoubleChar_cons]
    cases h1 : noDoubleChar u l <;> cases h2 : headIs u l <;>
      cases h3 : decide (a = u) <;> simp

/-! ### Lemmas about underscore collapsing and whitespace squeezing -/

theorem mem_collapseUS : ∀ (l : QStr) (c : Char), c ∈ collapseUS l → c ∈ l := by
  intro l
  induction l with
  | nil => intro c hc; simp [collapseUS] at hc
  | cons a l ih =>
    intro c hc
    simp only [collapseUS] at hc
    by_cases h : (decide (a = '_') && headIs '_' l) = true
    · simp only [h, if_true] at hc
      exact List.mem_cons_of_mem a (ih c hc)
    · simp only [h, if_neg, Bool.false_eq_true, ite_false, List.mem_cons] at hc
      rcases hc with hc | hc
      · simp [hc]
      · exact List.mem_cons_of_mem a (ih c hc)

theorem headUS_collapse : ∀ (l : QStr),
    headIs '_' (collapseUS l) = headIs '_' l := by
  intro l
  induction l with
  | nil => rfl
  | cons a l ih =>
    simp only [collapseUS]
    by_cases h : (decide (a = '_') && headIs '_' l) = true
    · simp only [h, if_true, ih]
      rcases Bool.and_eq_true _ _ |>.mp h with ⟨h1, h2⟩
      have ha : headIs '_' (a :: l) = true := by
        simp only [headIs]
        exact h1
      rw [h2, ha]
    · simp only [h, if_neg, Bool.false_eq_true, ite_false]
      rfl

theorem nd_collapseUS : ∀ (l : QStr),
    noDoubleChar '_' (collapseUS l) = true := by
  intro l
  induction l with
  | nil => rfl
  | cons a l ih =>
    simp only [collapseUS]
    by_cases h : (decide (a = '_') && headIs '_' l) = true
    · simpa [h] using ih
    · simp only [h, if_neg, Bool.false_eq_true, ite_false]
      rw [noDoubleChar_cons, headUS_collapse]
      simp only [ih, Bool.and_true]
      have h2 : (decide (a = '_') && headIs '_' l) = false := by
        cases hx : (decide (a = '_') && headIs '_' l)
        · rfl
        · exact absurd hx h
      simp [h2]

theorem mem_squeezeWS : ∀ (l : QStr) (c : Char),
    c ∈ squeezeWS l → c = ' ' ∨ c ∈ l := by
  intro l
  induction l with
  | nil => intro c hc; simp [squeezeWS] at hc
  | cons a l ih =>
    intro c hc
    simp only [squeezeWS] at hc
    by_cases hsp : qIsSpace a = true
    · simp only [hsp, if_true] at hc
      by_cases hh : headIsSpace l = true
      · simp only [hh, if_true] at hc
        rcases ih c hc with h | h
        · exact Or.inl h
        · exact Or.inr (List.mem_cons_of_mem a h)
      · simp only [hh, if_neg, Bool.false_eq_true, ite_false, List.mem_cons] at hc
        rcases hc with hc | hc
        · exact Or.inl hc
        · rcases ih c hc with h | h
          · exact Or.inl h
          · exact Or.inr (List.mem_cons_of_mem a h)
    · simp only [hsp, if_neg, Bool.false_eq_true, ite_false, List.mem_cons] at hc
      rcases hc with hc | hc
      · exact Or.inr (by simp [hc])
      · rcases ih c hc with h | h
        · exact Or.inl h
        · exact Or.inr (List.mem_cons_of_mem a h)

theorem headIs_of_headIsSpace {u : Char} {l : QStr}
    (hu : qIsSpace u = false) (h : headIsSpace l = true) :
    headIs u l = false := by
  cases l with
  | nil => rfl
  | cons a t =>
    simp only [headIsSpace] at h
    simp only [headIs]
    by_cases ha : a = u
    · rw [ha] at h
      rw [h] at hu
      exact absurd hu (by simp)
    · simp [ha]

theorem headIs_squeeze (u : Char) (hu : qIsSpace u = false) :
    ∀ (l : QStr), headIs u (squeezeWS l) = headIs u l := by
  intro l
  induction l with
  | nil => rfl
  | cons a l ih =>
    simp only [squeezeWS]
    by_cases hsp : qIsSpace a = true
    · have hau : headIs u (a :: l) = false := by
        simp only [headIs]
        by_cases ha : a = u
        · rw [ha] at hsp
          rw [hsp] at hu
          exact absurd hu (by simp)
        · simp [ha]
      by_cases hh : headIsSpace l = true
      · simp only [hsp, if_true, hh, ih, hau]
        exact headIs_of_headIsSpace hu hh
      · simp only [hsp, if_true, hh, Bool.false_eq_true, ite_false, hau]
        simp only [headIs]
        have hne : ¬(' ' = u) := fun hx => by
          rw [← hx] at hu
          simp [qIsSpace] at hu
        simp [hne]
    · simp only [hsp, Bool.false_eq_true, ite_false]
      rfl

theorem nd_squeeze (u : Char) (hu : qIsSpace u = false) :
    ∀ (l : QStr), noDoubleChar u l = true →
      noDoubleChar u (squeezeWS l) = true := by
  intro l
  induction l with
  | nil => intro _; rfl
  | cons a l ih =>
    intro h
    have htl : noDoubleChar u l = true := noDoubleChar_tail h
    simp only [squeezeWS]
    by_cases hsp : qIsSpace a = true
    · by_cases hh : headIsSpace l = true
      · simp only [hsp, if_true, hh]
        exact ih htl
      · simp only [hsp, if_true, hh, Bool.false_eq_true, ite_false]
        rw [noDoubleChar_cons, headIs_squeeze u hu]
        have hsu : ¬(' ' = u) := fun hx => by
          rw [← hx] at hu
          simp [qIsSpace] at hu
        rw [decide_eq_false hsu]
        simp only [Bool.false_and, Bool.not_false, Bool.true_and]
        exact ih htl
    · simp only [hsp, Bool.false_eq_true, ite_false]
      rw [noDoubleChar_cons, headIs_squeeze u hu]
      rw [noDoubleChar_cons] at h
      rcases Bool.and_eq_true _ _ |>.mp h with ⟨h1, _⟩
      simp only [h1, Bool.true_and]
      exact ih htl

theorem head?_qTrimL : ∀ (l : QStr) (c : Char),
    (qTrimL l).head? = some c → qIsSpace c = false := by
  intro l
  induction l with
  | nil => intro c hc; simp [qTrimL] at hc
  | cons a l ih =>
    intro c hc
    simp only [qTrimL, List.dropWhile_cons] at hc
    by_cases hsp : qIsSpace a = true
    · simp only [hsp, if_true] at hc
      exact ih c hc
    · simp only [hsp, Bool.false_eq_true, ite_false, List.head?_cons,
        Option.some_inj] at hc
      subst hc
      simpa using hsp

theorem mem_qTrimL : ∀ (l : QStr) (c : Char), c ∈ qTrimL l → c ∈ l := by
  intro l
  induction l with
  | nil => intro c hc; simp [qTrimL] at hc
  | cons a l ih =>
    intro c hc
    simp only [qTrimL, List.dropWhile_cons] at hc
    by_cases hsp : qIsSpace a = true
    · simp only [hsp, if_true] at hc
      exact List.mem_cons_of_mem a (ih c hc)
    · rw [if_neg hsp] at hc
      exact hc

theorem nd_qTrimL (u : Char) (l : QStr) (h : noDoubleChar u l = true) :
    noDoubleChar u (qTrimL l) = true := by
  have hdec := List.takeWhile_append_dropWhile qIsSpace l
  have : noDoubleChar u (l.takeWhile qIsSpace ++ l.dropWhile qIsSpace) = true := by
    rw [hdec]; exact h
  exact nd_of_append_right u _ _ this

theorem mem_qSimplified : ∀ (l : QStr) (c : Char),
    c ∈ qSimplified l → c = ' ' ∨ c ∈ l := by
  intro l c hc
  simp only [qSimplified] at hc
  have h1 := mem_qTrimL _ c (List.mem_reverse.mp hc)
  have h2 := mem_qTrimL _ c (List.mem_reverse.mp h1)
  exact mem_squeezeWS l c h2

theorem nd_qSimplified (u : Char) (hu : qIsSpace u = false) (l : QStr)
    (h : noDoubleChar u l = true) : noDoubleChar u (qSimplified l) = true := by
  simp only [qSimplified]
  rw [nd_reverse]
  refine nd_qTrimL u _ ?_
  rw [nd_reverse]
  exact nd_qTrimL u _ (nd_squeeze u hu l h)

theorem head?_qSimplified (l : QStr) (c : Char)
    (hc : (qSimplified l).head? = some c) : qIsSpace c = false := by
  simp only [qSimplified] at hc
  set t := qTrimL (squeezeWS l) with ht
  have hdec := List.takeWhile_append_dropWhile qIsSpace t.reverse
  have hrev : t = (qTrimL t.reverse).reverse ++ (t.reverse.takeWhile qIsSpace).reverse := by
    have h0 := congrArg List.reverse hdec
    rw [List.reverse_append, List.reverse_reverse] at h0
    exact h0.symm
  have hth : t.head? = some c := by
    rw [hrev]
    cases hres : (qTrimL t.reverse).reverse with
    | nil =>
      rw [hres] at hc
      simp at hc
    | cons d r =>
      rw [hres] at hc
      simp only [List.head?_cons, Option.some_inj] at hc
      subst hc
      rfl
  rw [ht] at hth
  exact head?_qTrimL (squeezeWS l) c hth

theorem getLast?_qSimplified (l : QStr) (c : Char)
    (hc : (qSimplified l).getLast? = some c) : qIsSpace c = false := by
  simp only [qSimplified] at hc
  rw [List.getLast?_reverse] at hc
  exact head?_qTrimL _ c hc

theorem headIs_true_iff (u : Char) (l : QStr) :
    headIs u l = true ↔ l.head? = some u := by
  cases l with
  | nil => simp [headIs]
  | cons c t => simp [headIs]

theorem lastIs_false_of_not_mem {u : Char} {l : QStr}
    (h : ∀ c ∈ l, ¬c = u) : lastIs u l = false := by
  simp only [lastIs]
  exact headIs_false_of_not_mem (fun c hc => h c (List.mem_reverse.mp hc))

theorem nd_joinSep (sep : Char) :
    ∀ (ws : List QStr), (∀ w ∈ ws, w ≠ [] ∧ ∀ c ∈ w, ¬c = sep) →
      noDoubleChar sep (joinSep sep ws) = true := by
  intro ws
  induction ws with
  | nil => intro _; rfl
  | cons w ws ih =>
    intro h
    rcases h w (by simp) with ⟨hwne, hwch⟩
    cases ws with
    | nil => exact noDoubleChar_of_not_mem sep w hwch
    | cons v vs =>
      have hrest : ∀ u ∈ v :: vs, u ≠ [] ∧ ∀ c ∈ u, ¬c = sep :=
        fun u hu => h u (List.mem_cons_of_mem w hu)
      have hvne : v ≠ [] := (hrest v (by simp)).1
      have hvch : ∀ c ∈ v, ¬c = sep := (hrest v (by simp)).2
      simp only [joinSep]
      have hheadt : headIs sep (joinSep sep (v :: vs)) = false := by
        cases hx : headIs sep (joinSep sep (v :: vs))
        · rfl
        · exfalso
          have := (headIs_true_iff sep _).mp hx
          rw [head?_joinSep sep v vs hvne] at this
          cases v with
          | nil => exact hvne rfl
          | cons a t =>
            simp only [List.head?_cons, Option.some_inj] at this
            exact hvch a (by simp) this
      have hndys : noDoubleChar sep (sep :: joinSep sep (v :: vs)) = true := by
        rw [noDoubleChar_cons, hheadt]
        simp only [Bool.and_false, Bool.not_false, Bool.true_and]
        exact ih hrest
      refine nd_append sep w (sep :: joinSep sep (v :: vs))
        (noDoubleChar_of_not_mem sep w hwch) hndys ?_
      rw [lastIs_false_of_not_mem hwch]
      rfl

/-! ### Claim theorems: FormatId (C7, C8) and host matching (C9) -/

/-- Claim C9: if a host pattern yields no tokens when split on dot and
colon with empty parts skipped, then the matches helper accepts every
host against it, and Stream::matchesHost accepts every host whenever the
pattern list contains such a degenerate pattern. -/
theorem claim_c9_degenerate_pattern (host pattern : QStr)
    (regexHosts : List QStr)
    (hdeg : wordsBy (fun c => c = '.' || c = ':') pattern = [])
    (hmem : pattern ∈ regexHosts) :
    hostMatches host pattern = true ∧ matchesHost host regexHosts = true := by
  have hall := (wordsByAcc_eq_nil (fun c => c = '.' || c = ':') pattern [] hdeg).2
  have hdel : wordsBy delimDotBarColon pattern = [] := by
    refine wordsBy_eq_nil_of_sub _ delimDotBarColon pattern ?_ hdeg
    intro c hc
    simp only [delimDotBarColon]
    rcases Bool.or_eq_true _ _ |>.mp hc with h | h
    · simp [of_decide_eq_true h]
    · simp [of_decide_eq_true h]
  have hm : hostMatches host pattern = true := by
    simp [hostMatches, hdel]
  refine ⟨hm, ?_⟩
  simp only [matchesHost, List.any_eq_true]
  exact ⟨pattern, hmem, hm⟩

/-- Witness for C9 at a concrete degenerate pattern. -/
theorem claim_c9_witness :
    hostMatches ("www.example.com".toList) (".:".toList) = true ∧
      matchesHost ("www.example.com".toList)
        ["videos".toList, ".:".toList] = true :=
  claim_c9_degenerate_pattern _ _ _ (by decide) (by decide)

/-- Claim C7: parsing the serialized form of a StreamFormatId yields an
equal id (under the operator== of the source, which compares string
forms — the identifier lists are in fact equal), and joining the
serializations of its compound ids with plus signs re-yields its
serialization.  Every StreamFormatId is constructed through fromString
(the default constructor is fromString of the empty string), so the
quantification is over the constructing string. -/
theorem claim_c7_roundtrip (s : QStr) :
    fidBeq (fidFromString (fidToString (fidFromString s)))
        (fidFromString s) = true ∧
      joinSep '+' ((fidCompoundIds (fidFromString s)).map fidToString) =
        fidToString (fidFromString s) := by
  have hwords := wordsBy_words (fun c => c = '+') s
  have hsep : (fun c => decide (c = '+')) '+' = true := by decide
  have hround : wordsBy (fun c => c = '+')
      (joinSep '+' (wordsBy (fun c => c = '+') s)) =
        wordsBy (fun c => c = '+') s :=
    wordsBy_joinSep _ '+' hsep _ hwords
  constructor
  · have hid : fidFromString (fidToString (fidFromString s)) = fidFromString s := by
      simp only [fidFromString, fidToString]
      exact congrArg StreamFormatId.mk hround
    rw [hid]
    simp [fidBeq]
  · simp only [fidCompoundIds, fidFromString, List.map_map]
    have hgen : ∀ (ws : List QStr), (∀ w ∈ ws, w ≠ [] ∧ ∀ c ∈ w,
        (fun c => decide (c = '+')) c = false) →
          ws.map (fidToString ∘ fun ident => fidFromString ident) = ws := by
      intro ws
      induction ws with
      | nil => intro _; rfl
      | cons w ws ih =>
        intro h
        rcases h w (by simp) with ⟨hwne, hwch⟩
        simp only [List.map_cons]
        rw [ih (fun u hu => h u (List.mem_cons_of_mem w hu))]
        simp only [Function.comp_apply, fidFromString, fidToString]
        rw [wordsBy_single_word _ w hwne hwch]
        rfl
    rw [hgen _ hwords]
    rfl

/-- Claim C8 counterexample: an id built from a string containing a
space keeps that space in its string form, so the string form is not
whitespace-free for every constructing input. -/
theorem claim_c8_counterexample :
    ' ' ∈ fidToString (fidFromString ("a b".toList)) ∧ qIsSpace ' ' = true :=
  ⟨by decide, by decide⟩

/-- Claim C8 (amended): the string form of a StreamFormatId contains
whitespace only if the constructing string did (the parser splits on
plus signs only and does not remove whitespace), and the plus sign
occurs in it only as a separator between atomic tokens: never twice in a
row, never first and never last. -/
theorem claim_c8_plus_separator (s : QStr) :
    ((∀ c ∈ s, qIsSpace c = false) →
      ∀ c ∈ fidToString (fidFromString s), qIsSpace c = false) ∧
    noDoubleChar '+' (fidToString (fidFromString s)) = true ∧
    (∀ c, (fidToString (fidFromString s)).head? = some c → ¬c = '+') ∧
    (∀ c, (fidToString (fidFromString s)).getLast? = some c → ¬c = '+') := by
  have hwords := wordsBy_words (fun c => c = '+') s
  have hwordsne : ∀ w ∈ wordsBy (fun c => c = '+') s, w ≠ [] ∧ ∀ c ∈ w, ¬c = '+' := by
    intro w hw
    rcases hwords w hw with ⟨hwne, hwch⟩
    exact ⟨hwne, fun c hc => of_decide_eq_false (hwch c hc)⟩
  refine ⟨?_, ?_, ?_, ?_⟩
  · intro hs c hc
    simp only [fidToString, fidFromString] at hc
    rcases mem_joinSep '+' _ c hc with h | ⟨w, hw, hcw⟩
    · rw [h]
      decide
    · exact hs c (wordsBy_mem_chars _ s w hw c hcw)
  · simp only [fidToString, fidFromString]
    exact nd_joinSep '+' _ hwordsne
  · intro c hc
    simp only [fidToString, fidFromString] at hc
    cases hws : wordsBy (fun c => c = '+') s with
    | nil =>
      rw [hws] at hc
      simp [joinSep] at hc
    | cons w ws =>
      rw [hws] at hc
      have hwne : w ≠ [] := (hwordsne w (by rw [hws]; simp)).1
      rw [head?_joinSep '+' w ws hwne] at hc
      cases w with
      | nil => exact absurd rfl hwne
      | cons a t =>
        simp only [List.head?_cons, Option.some_inj] at hc
        have hmem2 : (a :: t) ∈ wordsBy (fun c => c = '+') s := by
          rw [hws]
          simp
        have hna := (hwordsne _ hmem2).2 a (by simp)
        rw [← hc]
        exact hna
  · intro c hc
    simp only [fidToString, fidFromString] at hc
    have := getLast?_joinSep (fun c => c = '+') '+' _
      (fun w hw => ⟨(hwordsne w hw).1, fun c hc =>
        decide_eq_false ((hwordsne w hw).2 c hc)⟩) c hc
    exact of_decide_eq_false this

/-- Witness for C8 (amended) at a concrete whitespace-free input. -/
theorem claim_c8_witness :
    (∀ c ∈ ("137+251".toList : QStr), qIsSpace c = false) ∧
      (∀ c ∈ fidToString (fidFromString ("137+251".toList)), qIsSpace c = false) ∧
      noDoubleChar '+' (fidToString (fidFromString ("137+251".toList))) = true :=
  ⟨by decide,
   (claim_c8_plus_separator ("137+251".toList)).1 (by decide),
   (claim_c8_plus_separator ("137+251".toList)).2.1⟩

/-! ### Claim theorems: filename sanitization (C5) -/

theorem trChar_allowed (isLN : Char → Bool) (c : Char) :
    isLN (trChar isLN c) = true ∨ legalChars.contains (trChar isLN c) = true ∨
      trChar isLN c = '_' := by
  simp only [trChar]
  by_cases h : (isLN c || legalChars.contains c) = true
  · rw [if_pos h]
    rcases Bool.or_eq_true _ _ |>.mp h with h | h
    · exact Or.inl h
    · exact Or.inr (Or.inl h)
  · rw [if_neg h]
    by_cases h2 : c = Char.ofNat 34
    · rw [if_pos h2]
      refine Or.inr (Or.inl ?_)
      decide
    · rw [if_neg h2]
      exact Or.inr (Or.inr rfl)

/-- Claim C5 counterexample: the sanitized name can contain an
underscore, which is neither a letter or digit (under any modelling of
the Unicode classification, underscore being connector punctuation) nor
a member of the fixed legal set. -/
theorem claim_c5_counterexample :
    '_' ∈ cleanFileName asciiLetterOrNumber ("a*b".toList) ∧
      asciiLetterOrNumber '_' = false ∧ legalChars.contains '_' = false :=
  ⟨by decide, by decide, by decide⟩

/-- Claim C5 (amended): for every input and every classification of
letters and digits, the sanitized name contains only characters that are
letters or digits, members of the fixed legal set, or the underscore
placeholder; it never contains two consecutive underscores; and it has
no leading or trailing whitespace. -/
theorem claim_c5_sanitizer (isLN : Char → Bool) (s : QStr) :
    (∀ c ∈ cleanFileName isLN s,
      isLN c = true ∨ legalChars.contains c = true ∨ c = '_') ∧
    noDoubleChar '_' (cleanFileName isLN s) = true ∧
    (∀ c, (cleanFileName isLN s).head? = some c → qIsSpace c = false) ∧
    (∀ c, (cleanFileName isLN s).getLast? = some c → qIsSpace c = false) := by
  refine ⟨?_, ?_, ?_, ?_⟩
  · intro c hc
    simp only [cleanFileName] at hc
    rcases mem_qSimplified _ c hc with h | h
    · subst h
      refine Or.inr (Or.inl ?_)
      decide
    · have h2 := mem_collapseUS _ c h
      rcases List.mem_map.mp h2 with ⟨d, _, hd⟩
      subst hd
      exact trChar_allowed isLN d
  · simp only [cleanFileName]
    exact nd_qSimplified '_' (by decide) _ (nd_collapseUS _)
  · intro c hc
    exact head?_qSimplified _ c hc
  · intro c hc
    exact getLast?_qSimplified _ c hc

/-- Witness for C5 (amended) at a concrete input. -/
theorem claim_c5_witness :
    (asciiLetterOrNumber 'a' = true ∨ legalChars.contains 'a' = true ∨ 'a' = '_') ∧
      noDoubleChar '_' (cleanFileName asciiLetterOrNumber ("a**b c".toList)) = true ∧
      qIsSpace 'a' = false :=
  ⟨(claim_c5_sanitizer asciiLetterOrNumber ("a**b c".toList)).1 'a' (by decide),
   (claim_c5_sanitizer asciiLetterOrNumber ("a**b c".toList)).2.1,
   (claim_c5_sanitizer asciiLetterOrNumber ("a**b c".toList)).2.2.1 'a' (by decide)⟩

/-! ### Association-map lemmas -/

section QMapLemmaSection

variable {K V : Type}

theorem qLookup_qInsert_match (eqk : K → K → Bool)
    (hsymm : ∀ a b, eqk a b = eqk b a)
    (htrans : ∀ a b c, eqk a b = true → eqk b c = true → eqk a c = true)
    (k k' : K) (v : V) (m : List (K × V)) (h : eqk k' k = true) :
    qLookup eqk k (qInsert eqk k' v m) = some v := by
  induction m with
  | nil => simp [qInsert, qLookup, h]
  | cons p m ih =>
    simp only [qInsert]
    by_cases hp : eqk p.1 k' = true
    · have hk : eqk p.1 k = true := htrans _ _ _ hp h
      simp [hp, qLookup, hk]
    · have hpf : eqk p.1 k' = false := by
        cases hx : eqk p.1 k'
        · rfl
        · exact absurd hx hp
      have hkk : eqk k k' = true := by
        rw [hsymm k k']
        exact h
      have hpk : eqk p.1 k = false := by
        cases hx : eqk p.1 k
        · rfl
        · exact absurd (htrans _ _ _ hx hkk) hp
      simp only [hpf, Bool.false_eq_true, ite_false]
      simp only [qLookup, hpk, Bool.false_eq_true, ite_false]
      exact ih

theorem qLookup_qInsert_other (eqk : K → K → Bool)
    (hsymm : ∀ a b, eqk a b = eqk b a)
    (htrans : ∀ a b c, eqk a b = true → eqk b c = true → eqk a c = true)
    (k k' : K) (v : V) (m : List (K × V)) (h : eqk k' k = false) :
    qLookup eqk k (qInsert eqk k' v m) = qLookup eqk k m := by
  induction m with
  | nil => simp [qInsert, qLookup, h]
  | cons p m ih =>
    simp only [qInsert]
    by_cases hp : eqk p.1 k' = true
    · have hpk : eqk p.1 k = false := by
        cases hx : eqk p.1 k
        · rfl
        · exfalso
          have h1 : eqk k' p.1 = true := by
            rw [hsymm k' p.1]
            exact hp
          exact absurd (htrans _ _ _ h1 hx) (by simp [h])
      simp only [hp, if_true]
      simp only [qLookup, hpk, Bool.false_eq_true, ite_false]
    · have hpf : eqk p.1 k' = false := by
        cases hx : eqk p.1 k'
        · rfl
        · exact absurd hx hp
      simp only [hpf, Bool.false_eq_true, ite_false]
      simp only [qLookup]
      by_cases hpk : eqk p.1 k = true
      · simp [hpk]
      · have hpkf : eqk p.1 k = false := by
          cases hx : eqk p.1 k
          · rfl
          · exact absurd hx hpk
        simp only [hpkf, Bool.false_eq_true, ite_false]
        exact ih

theorem qLookup_foldl_no_match (eqk : K → K → Bool)
    (hsymm : ∀ a b, eqk a b = eqk b a)
    (htrans : ∀ a b c, eqk a b = true → eqk b c = true → eqk a c = true)
    {A : Type} (key : A → K) (val : A → V) :
    ∀ (l : List A) (m : List (K × V)) (k : K),
      (∀ a ∈ l, eqk (key a) k = false) →
      qLookup eqk k (l.foldl (fun m a => qInsert eqk (key a) (val a) m) m) =
        qLookup eqk k m := by
  intro l
  induction l with
  | nil => intro m k _; rfl
  | cons a l ih =>
    intro m k h
    simp only [List.foldl_cons]
    rw [ih _ k (fun b hb => h b (List.mem_cons_of_mem a hb))]
    exact qLookup_qInsert_other eqk hsymm htrans k (key a) (val a) m (h a (by simp))

theorem qLookup_foldl_distinct (eqk : K → K → Bool)
    (hsymm : ∀ a b, eqk a b = eqk b a)
    (htrans : ∀ a b c, eqk a b = true → eqk b c = true → eqk a c = true)
    {A : Type} (key : A → K) (val : A → V) :
    ∀ (l : List A) (m : List (K × V)) (k : K),
      List.Pairwise (fun a b => eqk (key a) (key b) = false) l →
      qLookup eqk k (l.foldl (fun m a => qInsert eqk (key a) (val a) m) m) =
        (match l.find? (fun a => eqk (key a) k) with
         | some a => some (val a)
         | none => qLookup eqk k m) := by
  intro l
  induction l with
  | nil => intro m k _; rfl
  | cons a l ih =>
    intro m k hpw
    rcases List.pairwise_cons.mp hpw with ⟨ha, hpl⟩
    simp only [List.foldl_cons]
    by_cases hk : eqk (key a) k = true
    · have hfind : (a :: l).find? (fun b => eqk (key b) k) = some a :=
        List.find?_cons_of_pos _ hk
      rw [hfind]
      have hnone : ∀ b ∈ l, eqk (key b) k = false := by
        intro b hb
        cases hx : eqk (key b) k
        · rfl
        · exfalso
          have h1 : eqk k (key b) = true := by
            rw [hsymm k (key b)]
            exact hx
          exact absurd (htrans _ _ _ hk h1) (by simp [ha b hb])
      rw [qLookup_foldl_no_match eqk hsymm htrans key val l _ k hnone]
      exact qLookup_qInsert_match eqk hsymm htrans k (key a) (val a) m hk
    · have hkf : eqk (key a) k = false := by
        cases hx : eqk (key a) k
        · rfl
        · exact absurd hx hk
      have hfind : (a :: l).find? (fun b => eqk (key b) k) =
          l.find? (fun b => eqk (key b) k) :=
        List.find?_cons_of_neg _ hk
      rw [hfind]
      rw [ih _ k hpl]
      cases hfind2 : l.find? (fun b => eqk (key b) k) with
      | some b => rfl
      | none =>
        exact qLookup_qInsert_other eqk hsymm htrans k (key a) (val a) m hkf

end QMapLemmaSection

theorem strBeq_symm (a b : QStr) : strBeq a b = strBeq b a := by
  simp only [strBeq]
  exact decide_eq_decide.mpr eq_comm

theorem strBeq_trans (a b c : QStr) (h1 : strBeq a b = true)
    (h2 : strBeq b c = true) : strBeq a c = true := by
  simp only [strBeq] at *
  exact decide_eq_true ((of_decide_eq_true h1).trans (of_decide_eq_true h2))

theorem fidBeq_symm (a b : StreamFormatId) : fidBeq a b = fidBeq b a := by
  simp only [fidBeq]
  exact decide_eq_decide.mpr eq_comm

theorem fidBeq_trans (a b c : StreamFormatId) (h1 : fidBeq a b = true)
    (h2 : fidBeq b c = true) : fidBeq a c = true := by
  simp only [fidBeq] at *
  exact decide_eq_true ((of_decide_eq_true h1).trans (of_decide_eq_true h2))

theorem foldl_add_eq_sum {A : Type} (f : A → Int) :
    ∀ (l : List A) (acc : Int),
      l.foldl (fun a x => a + f x) acc = acc + (l.map f).sum := by
  intro l
  induction l with
  | nil => intro acc; simp
  | cons x l ih =>
    intro acc
    simp only [List.foldl_cons, List.map_cons, List.sum_cons]
    rw [ih]
    ring

/-! ### Claim theorem: size estimation (C6) -/

/-- Claim C6: guestimateFullSize is -1 on an empty format id, and
otherwise sums, over the atoms of the compound id, the filesize of the
format whose formatId equals the atom — 0 for atoms with no matching
format.  The hypothesis states that the formats carry pairwise distinct
formatIds, which makes "the format whose formatId equals that atom"
well-defined; the source realizes the sum through a QMap in which a
later duplicate would overwrite an earlier one. -/
theorem claim_c6_guestimate (si : StreamInfo) (fid : StreamFormatId)
    (huniq : List.Pairwise
      (fun f g => fidBeq f.formatId g.formatId = false) si.formats) :
    guestimateFullSize si fid =
      if fidIsEmpty fid then -1
      else ((fidCompoundIds fid).map (specFilesize si.formats)).sum := by
  simp only [guestimateFullSize]
  by_cases hemp : fidIsEmpty fid = true
  · simp [hemp]
  · simp only [hemp, Bool.false_eq_true, ite_false]
    have hval : ∀ id, qValueD fidBeq id 0
        (si.formats.foldl (fun m f => qInsert fidBeq f.formatId f.filesize m) []) =
          specFilesize si.formats id := by
      intro id
      simp only [qValueD, specFilesize]
      rw [qLookup_foldl_distinct fidBeq fidBeq_symm fidBeq_trans
        (fun f => f.formatId) (fun f => f.filesize) si.formats [] id huniq]
      cases hfind : si.formats.find? (fun f => fidBeq f.formatId id) with
      | some f => rfl
      | none => rfl
    have hcong : (fidCompoundIds fid).foldl
        (fun acc id => acc + qValueD fidBeq id 0
          (si.formats.foldl (fun m f => qInsert fidBeq f.formatId f.filesize m) [])) 0 =
        (fidCompoundIds fid).foldl
          (fun acc id => acc + specFilesize si.formats id) 0 := by
      simp only [hval]
    rw [hcong,
      foldl_add_eq_sum (specFilesize si.formats) (fidCompoundIds fid) 0]
    simp

/-- Witness for C6 at a concrete StreamInfo with two formats. -/
theorem claim_c6_witness :
    guestimateFullSize
        { formats := [{ formatId := fidFromString ("137".toList), filesize := 100 },
                      { formatId := fidFromString ("251".toList), filesize := 23 }] }
        (fidFromString ("137+251".toList)) =
      (if fidIsEmpty (fidFromString ("137+251".toList)) then -1
       else ((fidCompoundIds (fidFromString ("137+251".toList))).map
         (specFilesize [{ formatId := fidFromString ("137".toList), filesize := 100 },
                        { formatId := fidFromString ("251".toList), filesize := 23 }])).sum) :=
  claim_c6_guestimate _ _ (by decide)

/-! ### Claim theorems: Destination handling (C2) -/

/-- Claim C2 counterexample: after a progress line of 50% of 100MiB and
then a Destination line, starting from the cleared counters, the section
counters still hold the previous section's values — they are not reset
to zero by the Destination branch. -/
theorem claim_c2_counterexample :
    (runParse clearState
      ["[download] 50.0% of 100.00MiB".toList,
       "[download] Destination: /tmp/x.m4a".toList]).1.bytesReceivedCurrentSection
        = 52428800 ∧
    (runParse clearState
      ["[download] 50.0% of 100.00MiB".toList,
       "[download] Destination: /tmp/x.m4a".toList]).1.bytesTotalCurrentSection
        = 104857600 :=
  ⟨by decide, by decide⟩

/-- Claim C2 (amended): on a Destination line (first token lowercased
"[download]", more than 2 tokens, second token "Destination:"), the
parser adds the current section's received bytes into the cumulative
bytesReceived and emits downloadProgress(bytesReceived,
totalOrSectionTotal) — but it does not reset the section counters:
bytesReceivedCurrentSection and bytesTotalCurrentSection keep their
previous values until the next progress line overwrites them. -/
theorem claim_c2_destination (s : StreamState) (data : QStr)
    (h1 : lowerStr ((wordsBy (fun c => c = ' ') data).getD 0 []) = dlHeader)
    (h2 : 2 < (wordsBy (fun c => c = ' ') data).length)
    (h3 : (wordsBy (fun c => c = ' ') data).getD 1 [] = destMarker) :
    parseStandardOutput s data =
      ({ s with bytesReceived := s.bytesReceived + s.bytesReceivedCurrentSection },
       [(s.bytesReceived + s.bytesReceivedCurrentSection, qBytesTotal s)]) ∧
    (parseStandardOutput s data).1.bytesReceivedCurrentSection =
      s.bytesReceivedCurrentSection ∧
    (parseStandardOutput s data).1.bytesTotalCurrentSection =
      s.bytesTotalCurrentSection := by
  have hne : (wordsBy (fun c => c = ' ') data).isEmpty = false := by
    cases hx : wordsBy (fun c => c = ' ') data with
    | nil =>
      rw [hx] at h2
      simp at h2
    | cons a t => rfl
  have hqb : qBytesTotal { s with bytesReceived :=
      s.bytesReceived + s.bytesReceivedCurrentSection } = qBytesTotal s := rfl
  have hmain : parseStandardOutput s data =
      ({ s with bytesReceived := s.bytesReceived + s.bytesReceivedCurrentSection },
       [(s.bytesReceived + s.bytesReceivedCurrentSection, qBytesTotal s)]) := by
    simp only [parseStandardOutput, parseStdOutFull, hne, Bool.false_eq_true,
      ite_false, decide_eq_true h1, Bool.not_true, decide_eq_true h2,
      decide_eq_true h3, Bool.and_self, if_true, hqb]
  exact ⟨hmain, by rw [hmain], by rw [hmain]⟩

/-- Witness for C2 (amended) at a concrete state and line. -/
theorem claim_c2_witness :
    parseStandardOutput
        { bytesReceived := 10, bytesReceivedCurrentSection := 5,
          bytesTotal := 0, bytesTotalCurrentSection := 7 }
        ("[download] Destination: /tmp/x".toList) =
      ({ bytesReceived := 15, bytesReceivedCurrentSection := 5,
         bytesTotal := 0, bytesTotalCurrentSection := 7 }, [(15, 7)]) :=
  (claim_c2_destination
    { bytesReceived := 10, bytesReceivedCurrentSection := 5,
      bytesTotal := 0, bytesTotalCurrentSection := 7 }
    ("[download] Destination: /tmp/x".toList)
    (by decide) (by decide) (by decide)).1

/-! ### Claim theorem: stderr entries override stdout entries (C10) -/

theorem strBeq_refl (a : QStr) : strBeq a a = true := by
  simp [strBeq]

theorem dumpErrFold_no_match :
    ∀ (lines : List QStr) (m : DumpMap) (id : QStr),
      (∀ l ∈ lines, l.isEmpty = false → ¬getStreamId l = id) →
      qLookup strBeq id (lines.foldl
        (fun m line =>
          if line.isEmpty then m
          else
            let si := parseDumpItemStdErrM line
            qInsert strBeq si.id si m) m) = qLookup strBeq id m := by
  intro lines
  induction lines with
  | nil => intro m id _; rfl
  | cons l rest ih =>
    intro m id h
    simp only [List.foldl_cons]
    by_cases hemp : l.isEmpty = true
    · rw [if_pos hemp]
      exact ih m id (fun u hu => h u (List.mem_cons_of_mem l hu))
    · rw [if_neg hemp]
      rw [ih _ id (fun u hu => h u (List.mem_cons_of_mem l hu))]
      have hlne : l.isEmpty = false := by
        cases hx : l.isEmpty
        · rfl
        · exact absurd hx hemp
      have hkey : strBeq (parseDumpItemStdErrM l).id id = false := by
        have hni : ¬getStreamId l = id := h l (by simp) hlne
        simp [parseDumpItemStdErrM, strBeq, hni]
      exact qLookup_qInsert_other strBeq strBeq_symm strBeq_trans
        id (parseDumpItemStdErrM l).id (parseDumpItemStdErrM l) m hkey

theorem dumpErrFold_match :
    ∀ (lines : List QStr) (m : DumpMap) (id : QStr),
      (∃ l ∈ lines, l.isEmpty = false ∧ getStreamId l = id) →
      qLookup strBeq id (lines.foldl
        (fun m line =>
          if line.isEmpty then m
          else
            let si := parseDumpItemStdErrM line
            qInsert strBeq si.id si m) m) =
        some { id := id, error := .errorUnavailable } := by
  intro lines
  induction lines with
  | nil =>
    intro m id h
    rcases h with ⟨l, hl, _⟩
    simp at hl
  | cons l rest ih =>
    intro m id h
    simp only [List.foldl_cons]
    by_cases hrest : ∃ u ∈ rest, u.isEmpty = false ∧ getStreamId u = id
    · exact ih _ id hrest
    · rcases h with ⟨u, hu, hune, huid⟩
      rcases List.mem_cons.mp hu with hul | hur
      · subst hul
        rw [if_neg (by simp [hune])]
        have hnomatch : ∀ v ∈ rest, v.isEmpty = false → ¬getStreamId v = id := by
          intro v hv hvne hvid
          exact hrest ⟨v, hv, hvne, hvid⟩
        rw [dumpErrFold_no_match rest _ id hnomatch]
        have hstub : parseDumpItemStdErrM u =
            { id := id, error := .errorUnavailable } := by
          simp [parseDumpItemStdErrM, huid]
        rw [hstub]
        exact qLookup_qInsert_match strBeq strBeq_symm strBeq_trans
          id id _ m (strBeq_refl id)
      · exact absurd ⟨u, hur, hune, huid⟩ hrest

/-- Claim C10: parseDumpMap inserts all stderr lines after all stdout
lines into the same id-keyed map, so whenever an id occurs both in a
parsed stdout line and in a non-empty stderr line, the resulting entry
for that id is the stderr stub with error Unavailable.  The JSON
decoding of stdout lines is abstracted as the parameter pOut, which the
claim quantifies over. -/
theorem claim_c10_stderr_overrides (pOut : QStr → StreamInfo)
    (stdoutBytes stderrBytes : QStr) (id : QStr)
    (_hout : ∃ line ∈ splitKeep '\n' stdoutBytes,
      line.isEmpty = false ∧ (pOut line).id = id)
    (herr : ∃ line ∈ splitKeep '\n' stderrBytes,
      line.isEmpty = false ∧ getStreamId line = id) :
    qLookup strBeq id (parseDumpMapM pOut stdoutBytes stderrBytes) =
      some { id := id, error := .errorUnavailable } := by
  simp only [parseDumpMapM]
  exact dumpErrFold_match _ _ id herr

/-- Witness for C10: an id parsed from stdout and reported unavailable
on stderr ends up Unavailable in the map. -/
theorem claim_c10_witness :
    qLookup strBeq ("abc".toList)
      (parseDumpMapM (fun _ => { id := "abc".toList, defaultTitle := "T".toList })
        ("x\n".toList) ("ERROR: abc: gone".toList)) =
      some { id := "abc".toList, error := .errorUnavailable } :=
  claim_c10_stderr_overrides _ _ _ _
    ⟨"x".toList, by decide, by decide, by decide⟩
    ⟨"ERROR: abc: gone".toList, by decide, by decide, by decide⟩

/-! ### Claim theorem: reconciliation of dump and flat results (C3) -/

theorem qContainsKey_of_qLookup_some {K V : Type} (eqk : K → K → Bool) :
    ∀ (m : List (K × V)) (k : K) (v : V), qLookup eqk k m = some v →
      qContainsKey eqk k m = true := by
  intro m
  induction m with
  | nil => intro k v h; simp [qLookup] at h
  | cons p m ih =>
    intro k v h
    simp only [qLookup] at h
    simp only [qContainsKey, List.any_cons, Bool.or_eq_true]
    by_cases hp : eqk p.1 k = true
    · exact Or.inl hp
    · rw [if_neg hp] at h
      exact Or.inr (by simpa [qContainsKey] using ih k v h)

theorem qContainsKey_of_qLookup_none {K V : Type} (eqk : K → K → Bool) :
    ∀ (m : List (K × V)) (k : K), qLookup eqk k m = none →
      qContainsKey eqk k m = false := by
  intro m
  induction m with
  | nil => intro k _; rfl
  | cons p m ih =>
    intro k h
    simp only [qLookup] at h
    by_cases hp : eqk p.1 k = true
    · rw [if_pos hp] at h
      exact absurd h (by simp)
    · rw [if_neg hp] at h
      have hpf : eqk p.1 k = false := by
        cases hx : eqk p.1 k
        · rfl
        · exact absurd hx hp
      simp only [qContainsKey, List.any_cons, hpf, Bool.false_or]
      simpa [qContainsKey] using ih k h

theorem createStreamInfo_spec (d : DumpMap) (it : FlatItem) (n : Nat)
    (hid : it.id.isEmpty = false) :
    specReconcile d n it =
      { createStreamInfoM d it with playlist_index := natChars (n + 1) } := by
  simp only [specReconcile, createStreamInfoM]
  cases hlk : qLookup strBeq it.id d with
  | some v =>
    have hcont : qContainsKey strBeq it.id d = true :=
      qContainsKey_of_qLookup_some strBeq d it.id v hlk
    have hcond : (!it.id.isEmpty && qContainsKey strBeq it.id d) = true := by
      rw [hid, hcont]
      rfl
    rw [if_pos hcond]
    have hvd : qValueD strBeq it.id { } d = v := by
      simp [qValueD, hlk]
    rw [hvd]
  | none =>
    have hcont : qContainsKey strBeq it.id d = false :=
      qContainsKey_of_qLookup_none strBeq d it.id hlk
    have hcond : ¬((!it.id.isEmpty && qContainsKey strBeq it.id d) = true) := by
      rw [hid, hcont]
      simp
    rw [if_neg hcond]

theorem collectWalk_enumFrom (d : DumpMap) :
    ∀ (l : List FlatItem) (n : Nat), (∀ it ∈ l, it.id.isEmpty = false) →
      collectWalk d n l =
        (List.enumFrom n l).map (fun p => specReconcile d p.1 p.2) := by
  intro l
  induction l with
  | nil => intro n _; rfl
  | cons it rest ih =>
    intro n h
    simp only [collectWalk, List.enumFrom_cons, List.map_cons]
    rw [createStreamInfo_spec d it n (h it (by simp))]
    rw [ih (n + 1) (fun u hu => h u (List.mem_cons_of_mem it hu))]

/-- Claim C3: when both probe processes have finished with the job not
cancelled and both the dump map and the flat list non-empty, onFinished
emits collected(list) whose i-th entry (1-based i) is the dump entry for
the i-th flat item's id when present and an Unavailable stub otherwise,
with a missing defaultTitle filled from the flat title, a missing
webpage_url filled from the flat url, and playlist_index set to i.  The
hypothesis that every flat item has a non-empty id holds for every list
parseFlatList produces (it filters empty ids). -/
theorem claim_c3_reconciliation (dumpMap : DumpMap) (flatList : List FlatItem)
    (hd : dumpMap.isEmpty = false) (hf : flatList.isEmpty = false)
    (hids : ∀ it ∈ flatList, it.id.isEmpty = false) :
    onFinishedEmission dumpMap flatList false =
      some (.collected (flatList.enum.map
        (fun p => specReconcile dumpMap p.1 p.2))) := by
  simp only [onFinishedEmission, Bool.false_eq_true, ite_false, hd, hf,
    Bool.not_false, Bool.and_self, if_true]
  rw [show flatList.enum = List.enumFrom 0 flatList from rfl]
  rw [← collectWalk_enumFrom dumpMap flatList 0 hids]

/-- Every flat list the collector parses has only non-empty item ids
(the hypothesis of the reconciliation claim), for any line decoder. -/
theorem parseFlatListM_ids (pItem : QStr → FlatItem) (sout serr : QStr) :
    ∀ it ∈ parseFlatListM pItem sout serr, it.id.isEmpty = false := by
  simp only [parseFlatListM]
  have hgen : ∀ (lines : List QStr) (acc : List FlatItem),
      (∀ it ∈ acc, it.id.isEmpty = false) →
      ∀ it ∈ lines.foldl
        (fun l line =>
          if line.isEmpty then l
          else
            let item := pItem line
            if item.id.isEmpty then l else l ++ [item]) acc,
        it.id.isEmpty = false := by
    intro lines
    induction lines with
    | nil => intro acc hacc it hit; exact hacc it hit
    | cons l rest ih =>
      intro acc hacc it hit
      simp only [List.foldl_cons] at hit
      by_cases hemp : l.isEmpty = true
      · rw [if_pos hemp] at hit
        exact ih acc hacc it hit
      · rw [if_neg hemp] at hit
        by_cases hide : (pItem l).id.isEmpty = true
        · rw [if_pos hide] at hit
          exact ih acc hacc it hit
        · rw [if_neg hide] at hit
          refine ih _ ?_ it hit
          intro u hu
          rcases List.mem_append.mp hu with h | h
          · exact hacc u h
          · have : u = pItem l := by simpa using h
            rw [this]
            cases hx : (pItem l).id.isEmpty
            · rfl
            · exact absurd hx hide
  exact hgen _ [] (by simp)

/-- Witness for C3 at a concrete playlist with one available and one
missing item. -/
theorem claim_c3_witness :
    onFinishedEmission
        [("a".toList, { id := "a".toList, defaultTitle := "T".toList })]
        [{ id := "a".toList, title := "ft".toList, url := "u".toList },
         { id := "b".toList, title := "bt".toList, url := "bu".toList }]
        false =
      some (.collected
        (([{ id := "a".toList, title := "ft".toList, url := "u".toList },
           { id := "b".toList, title := "bt".toList, url := "bu".toList }] :
            List FlatItem).enum.map
          (fun p => specReconcile
            [("a".toList, { id := "a".toList, defaultTitle := "T".toList })]
            p.1 p.2))) :=
  claim_c3_reconciliation _ _ (by decide) (by decide) (by decide)

/-! ### Claim theorem: the cache-purge retry is bounded to one (C4) -/

theorem collectorRunAsync_ghost (st : CollectorState) (url : QStr) :
    (collectorRunAsync st url).purgeCount = st.purgeCount ∧
      (collectorRunAsync st url).isCleaned = st.isCleaned := by
  simp only [collectorRunAsync]
  cases h1 : st.dumpRunning <;> cases h2 : st.flatRunning <;> simp

theorem collectorStep_purgeInv (pOut : QStr → StreamInfo)
    (pItem : QStr → FlatItem) (st : CollectorState) (ev : CollectorEv)
    (h1 : st.purgeCount ≤ 1)
    (h2 : st.purgeCount = 1 → (st.isCleaned = true ∨ st.dumpRunning = false)) :
    (collectorStep pOut pItem st ev).purgeCount ≤ 1 ∧
      ((collectorStep pOut pItem st ev).purgeCount = 1 →
        ((collectorStep pOut pItem st ev).isCleaned = true ∨
          (collectorStep pOut pItem st ev).dumpRunning = false)) := by
  cases ev with
  | dumpDone code normal sout serr =>
    simp only [collectorStep]
    cases hrun : st.dumpRunning
    · simp only [Bool.not_false, if_true]
      exact ⟨h1, fun _ => Or.inr hrun⟩
    · simp only [Bool.not_true, Bool.false_eq_true, ite_false]
      cases hnorm : normal
      · simp only [Bool.false_eq_true, ite_false]
        refine ⟨h1, fun _ => Or.inr ?_⟩
        simp
      · simp only [if_true]
        by_cases hg : (!(decide (code = 0)) &&
            !st.isCleaned &&
            !(decide (1 < (parseDumpMapM pOut sout serr).length))) = true
        · rw [if_pos hg]
          have hclean : st.isCleaned = false := by
            rcases Bool.and_eq_true _ _ |>.mp hg with ⟨hg1, _⟩
            rcases Bool.and_eq_true _ _ |>.mp hg1 with ⟨_, hg3⟩
            cases hx : st.isCleaned
            · rfl
            · rw [hx] at hg3
              exact absurd hg3 (by simp)
          have hzero : st.purgeCount = 0 := by
            rcases Nat.lt_or_ge st.purgeCount 1 with h | h
            · exact Nat.lt_one_iff.mp h
            · exfalso
              have : st.purgeCount = 1 := Nat.le_antisymm h1 h
              rcases h2 this with hc | hr
              · rw [hclean] at hc
                exact absurd hc (by simp)
              · rw [hrun] at hr
                exact absurd hr (by simp)
          simp only [collectorStop, hzero]
          constructor
          · cases hcr : st.cleanRunning <;> simp
          · intro _
            refine Or.inr ?_
            cases hcr : st.cleanRunning <;> simp
        · rw [if_neg hg]
          refine ⟨h1, fun _ => Or.inr ?_⟩
          simp
  | flatDone code normal sout serr =>
    simp only [collectorStep]
    cases hrun : st.flatRunning
    · simp only [Bool.not_false, if_true]
      exact ⟨h1, h2⟩
    · simp only [Bool.not_true, Bool.false_eq_true, ite_false]
      by_cases hcode : (normal && decide (code = 0)) = true
      · rw [if_pos hcode]
        refine ⟨h1, fun hp => ?_⟩
        rcases h2 hp with hc | hr
        · exact Or.inl hc
        · exact Or.inr hr
      · rw [if_neg hcode]
        refine ⟨h1, fun hp => ?_⟩
        rcases h2 hp with hc | hr
        · exact Or.inl hc
        · exact Or.inr hr
  | cleanDone code normal =>
    simp only [collectorStep]
    cases hrun : st.cleanRunning
    · simp only [Bool.not_false, if_true]
      exact ⟨h1, h2⟩
    · simp only [Bool.not_true, Bool.false_eq_true, ite_false]
      rcases collectorRunAsync_ghost
        { st with cleanRunning := false, isCleaned := true }
        ({ st with cleanRunning := false, isCleaned := true }).url
        with ⟨hpc, hic⟩
      rw [hpc, hic]
      exact ⟨h1, fun _ => Or.inl rfl⟩
  | stopReq =>
    simp only [collectorStep, collectorStop]
    refine ⟨h1, fun _ => Or.inr ?_⟩
    simp

theorem collectorRun_purgeInv (pOut : QStr → StreamInfo)
    (pItem : QStr → FlatItem) :
    ∀ (evs : List CollectorEv) (st : CollectorState),
      st.purgeCount ≤ 1 →
      (st.purgeCount = 1 → (st.isCleaned = true ∨ st.dumpRunning = false)) →
      (collectorRun pOut pItem st evs).purgeCount ≤ 1 := by
  intro evs
  induction evs with
  | nil => intro st hc _; exact hc
  | cons e es ih =>
    intro st hc hi
    simp only [collectorRun]
    rcases collectorStep_purgeInv pOut pItem st e hc hi with ⟨hc2, hi2⟩
    exact ih _ hc2 hi2

/-- Claim C4: over any sequence of process-termination and stop events
delivered to a collector started with runAsync, the purge-and-retry
branch of onFinishedDumpJson is entered at most once: the branch
requires a normal non-zero dump exit, at most one parsed dump entry and
a not-yet-attempted purge, and the cleaner's sticky isCleaned flag
(set on any terminal outcome of the purge process) together with the
restart discipline make a second entry unreachable. -/
theorem claim_c4_purge_bound (pOut : QStr → StreamInfo)
    (pItem : QStr → FlatItem) (url : QStr) (evs : List CollectorEv) :
    (collectorRun pOut pItem (collectorRunAsync { } url) evs).purgeCount ≤ 1 := by
  rcases collectorRunAsync_ghost { } url with ⟨hpc, _⟩
  refine collectorRun_purgeInv pOut pItem evs _ ?_ ?_
  · rw [hpc]
    exact Nat.zero_le 1
  · intro h
    rw [hpc] at h
    exact absurd h (by simp)

/-! ### Claim theorems: progress monotonicity (C1) -/

theorem parseStdOutFull_shape (s : StreamState) (data : QStr) :
    (parseStdOutFull s data = (s, [], .silent)) ∨
    (parseStdOutFull s data =
      ({ s with bytesReceived := s.bytesReceived + s.bytesReceivedCurrentSection },
       [(s.bytesReceived + s.bytesReceivedCurrentSection, qBytesTotal s)],
       .dest)) ∨
    (∃ b t, 0 ≤ b ∧ parseStdOutFull s data =
      ({ s with bytesTotalCurrentSection := t, bytesReceivedCurrentSection := b },
       [(s.bytesReceived + b,
         if 0 < s.bytesTotal then s.bytesTotal else t)], .progOk b)) ∨
    (∃ t, parseStdOutFull s data =
      ({ s with bytesTotalCurrentSection := t }, [], .progFail)) ∨
    (parseStdOutFull s data =
      (s, [(s.bytesReceived + s.bytesReceivedCurrentSection, qBytesTotal s)],
       .fall)) := by
  simp only [parseStdOutFull]
  by_cases c0 : (wordsBy (fun c => c = ' ') data).isEmpty = true
  · rw [if_pos c0]
    exact Or.inl rfl
  · rw [if_neg c0]
    by_cases c1 : (!(decide (lowerStr ((wordsBy (fun c => c = ' ') data).getD 0 [])
        = dlHeader))) = true
    · rw [if_pos c1]
      exact Or.inl rfl
    · rw [if_neg c1]
      by_cases c2 : (decide (2 < (wordsBy (fun c => c = ' ') data).length) &&
          decide ((wordsBy (fun c => c = ' ') data).getD 1 [] = destMarker)) = true
      · rw [if_pos c2]
        exact Or.inr (Or.inl rfl)
      · rw [if_neg c2]
        by_cases c3 : (decide (3 < (wordsBy (fun c => c = ' ') data).length) &&
            ((wordsBy (fun c => c = ' ') data).getD 1 []).contains '%' &&
            decide ((wordsBy (fun c => c = ' ') data).getD 2 [] = ofToken)) = true
        · rw [if_pos c3]
          by_cases c4 : (parsePercentDecimal
              ((wordsBy (fun c => c = ' ') data).getD 1 [])).1 < 0
          · rw [if_pos c4]
            exact Or.inr (Or.inr (Or.inr (Or.inl
              ⟨s.bytesTotalCurrentSection, rfl⟩)))
          · rw [if_neg c4]
            by_cases c5 : parseBytes
                ((wordsBy (fun c => c = ' ') data).getD 3 []) < 0
            · rw [if_pos c5]
              exact Or.inr (Or.inr (Or.inr (Or.inl
                ⟨parseBytes ((wordsBy (fun c => c = ' ') data).getD 3 []), rfl⟩)))
            · rw [if_neg c5]
              refine Or.inr (Or.inr (Or.inl ⟨_, _, ?_, rfl⟩))
              exact Int.ofNat_nonneg _
        · rw [if_neg c3]
          exact Or.inr (Or.inr (Or.inr (Or.inr rfl)))

theorem runOk_nonDecr :
    ∀ (lines : List QStr) (s : StreamState) (fresh : Bool),
      0 ≤ s.bytesReceivedCurrentSection →
      runOk s fresh lines = true →
      nonDecrFrom
        (if fresh = true then s.bytesReceived
         else s.bytesReceived + s.bytesReceivedCurrentSection)
        (receivedsOf s lines) = true := by
  intro lines
  induction lines with
  | nil =>
    intro s fresh _ _
    simp [receivedsOf, runParse, nonDecrFrom]
  | cons l rest ih =>
    intro s fresh hbrcs hok
    rcases parseStdOutFull_shape s l with h | h | ⟨b, t, hb, h⟩ | ⟨t, h⟩ | h
    · -- silent: no emission, no state change
      simp only [runOk, h] at hok
      simp only [receivedsOf, runParse, h, List.nil_append]
      exact ih s fresh hbrcs hok
    · -- destination: emit the new cumulative total, fresh becomes true
      simp only [runOk, h] at hok
      simp only [receivedsOf, runParse, h, List.map_append, List.map_cons,
        List.map_nil, List.singleton_append]
      simp only [nonDecrFrom]
      have hle : (if fresh = true then s.bytesReceived
          else s.bytesReceived + s.bytesReceivedCurrentSection) ≤
            s.bytesReceived + s.bytesReceivedCurrentSection := by
        cases fresh
        · simp
        · simp only [if_pos]
          exact Int.le_add_of_nonneg_right hbrcs
      rw [decide_eq_true hle, Bool.true_and]
      have := ih { s with bytesReceived :=
          s.bytesReceived + s.bytesReceivedCurrentSection } true hbrcs hok
      simpa [receivedsOf] using this
    · -- successful progress line
      simp only [runOk, h] at hok
      rcases Bool.and_eq_true _ _ |>.mp hok with ⟨hcond, hok2⟩
      simp only [receivedsOf, runParse, h, List.map_append, List.map_cons,
        List.map_nil, List.singleton_append]
      simp only [nonDecrFrom]
      have hle : (if fresh = true then s.bytesReceived
          else s.bytesReceived + s.bytesReceivedCurrentSection) ≤
            s.bytesReceived + b := by
        cases fresh
        · simp only [Bool.false_eq_true, ite_false]
          have hsb : s.bytesReceivedCurrentSection ≤ b := by
            simp only [Bool.false_or] at hcond
            exact of_decide_eq_true hcond
          exact Int.add_le_add_left hsb s.bytesReceived
        · simp only [if_pos]
          exact Int.le_add_of_nonneg_right hb
      rw [decide_eq_true hle, Bool.true_and]
      have := ih
        { s with
            bytesTotalCurrentSection := t
            bytesReceivedCurrentSection := b } false hb hok2
      simpa [receivedsOf] using this
    · -- failed progress line: no emission; only the section total changes
      simp only [runOk, h] at hok
      simp only [receivedsOf, runParse, h, List.nil_append]
      have := ih { s with bytesTotalCurrentSection := t } fresh hbrcs hok
      simpa [receivedsOf] using this
    · -- bare [download] line: re-emit the current value
      simp only [runOk, h] at hok
      rcases Bool.and_eq_true _ _ |>.mp hok with ⟨hcond, hok2⟩
      simp only [receivedsOf, runParse, h, List.map_append, List.map_cons,
        List.map_nil, List.singleton_append]
      simp only [nonDecrFrom]
      cases hfr : fresh
      · rw [hfr] at hok2
        simp only [Bool.false_eq_true, ite_false]
        rw [decide_eq_true (Int.le_refl _), Bool.true_and]
        have := ih s false hbrcs hok2
        simpa [receivedsOf] using this
      · have hz : s.bytesReceivedCurrentSection = 0 := by
          rw [hfr] at hcond
          simp only [Bool.not_true, Bool.false_or] at hcond
          exact of_decide_eq_true hcond
        rw [hfr] at hok2
        simp only [if_pos, hz, Int.add_zero]
        rw [decide_eq_true (Int.le_refl _), Bool.true_and]
        have := ih s true hbrcs hok2
        rw [hz] at this
        simpa [receivedsOf] using this

/-- Claim C1 counterexample: a run whose second progress line reports a
smaller percentage than the first produces a strictly decreasing pair of
received values, so the received values are not non-decreasing for every
sequence of parsed stdout lines. -/
theorem claim_c1_counterexample :
    nonDecr (receivedsOf clearState
      ["[download] 50.0% of 100.00MiB".toList,
       "[download] 10.0% of 100.00MiB".toList]) = false := by decide

/-- Claim C1 (amended): starting a run with a zero section counter, the
received values of the downloadProgress emissions are monotonically
non-decreasing provided the run is section-monotone (runOk): within one
section, successive well-formed progress lines report non-decreasing
section-received values, and no bare [download] line is re-emitted
between a section start and the next progress line while a stale
positive section counter is pending.  For arbitrary stdout lines the
received value can decrease. -/
theorem claim_c1_monotone (s0 : StreamState) (lines : List QStr)
    (hinit : s0.bytesReceivedCurrentSection = 0)
    (hok : runOk s0 true lines = true) :
    nonDecr (receivedsOf s0 lines) = true := by
  have h0 : (0 : Int) ≤ s0.bytesReceivedCurrentSection := by
    rw [hinit]
  have hmain := runOk_nonDecr lines s0 true h0 hok
  simp only [if_pos] at hmain
  cases hrec : receivedsOf s0 lines with
  | nil => rfl
  | cons x xs =>
    rw [hrec] at hmain
    simp only [nonDecrFrom] at hmain
    rcases Bool.and_eq_true _ _ |>.mp hmain with ⟨_, h2⟩
    simp only [nonDecr]
    exact h2

/-- Witness for C1 (amended): the multi-section scenario of the
specification, with the received values evaluating to a non-decreasing
sequence. -/
theorem claim_c1_witness :
    runOk clearState true
      ["[download] 10.0% of 100.00MiB".toList,
       "[download] 50.0% of 100.00MiB".toList,
       "[download] Destination: /tmp/out.m4a".toList,
       "[download] 25.0% of 50.00MiB".toList] = true ∧
    nonDecr (receivedsOf clearState
      ["[download] 10.0% of 100.00MiB".toList,
       "[download] 50.0% of 100.00MiB".toList,
       "[download] Destination: /tmp/out.m4a".toList,
       "[download] 25.0% of 50.00MiB".toList]) = true :=
  ⟨by decide,
   claim_c1_monotone clearState
     ["[download] 10.0% of 100.00MiB".toList,
      "[download] 50.0% of 100.00MiB".toList,
      "[download] Destination: /tmp/out.m4a".toList,
      "[download] 25.0% of 50.00MiB".toList] (by decide) (by decide)⟩

end ArrowDl
